import Mathlib

/-!
Verification development for the goes event-sourcing rebuild engine.

The definitions below shallowly embed:
* the aggregate rebuild pipeline of `aggregate/stream` (`stream.New` /
  `stream.NewOf` with its accept, group and emit stages),
* the projection job and its event-fetch cache of the `project` package
  (`cache.ensure`, `baseJob.EventsFor`, `continuousJob.EventsFor`),
* the `streams.FanIn` helper, as a labelled transition system.

Machine integers (UUIDs, versions) are modelled as `Nat`; timestamps as `Int`.
The concurrent pipeline is embedded as a deterministic sequentialisation:
each group request raised by the emit stage is served before the next input
event is accepted, and the final drain of the pending set happens in
first-seen order (Go ranges over a map here, so that order is unspecified;
none of the properties proved below depend on it).  Upstream error channels
and context cancellation are not exercised by the properties below and are
omitted from the embedding.
-/

namespace Goes

/-- An aggregate reference `(name, id)`; the pipeline's `job` type. -/
structure Ref where
  name : String
  id : Nat
deriving DecidableEq, Repr

/-- The event model: name, id, time, aggregate tuple, soft-delete marker.
The opaque payload is represented only by the capabilities the pipeline
inspects (the soft-delete marker). -/
structure Event where
  id : Nat
  name : String
  time : Int
  aggName : String
  aggId : Nat
  aggVersion : Nat
  softDeleted : Bool
deriving DecidableEq, Repr

/-- The aggregate reference extracted from an event
(`id, name, _ := evt.Aggregate()` in the accept and group stages). -/
def Event.job (e : Event) : Ref := ⟨e.aggName, e.aggId⟩

/-- An aggregate: reference plus current version. -/
structure Aggregate where
  name : String
  id : Nat
  version : Nat
deriving DecidableEq, Repr

/-- Modelled from the spec: `aggregate.New` (the aggregate package is not in
the sources, only its callers).  Returns the base aggregate for a reference,
with current version 0. -/
def Aggregate.new (name : String) (id : Nat) : Aggregate := ⟨name, id, 0⟩

inductive ConsistencyErrorKind where
  | identityMismatch (index : Nat)
  | unexpectedStartVersion (expected got : Nat)
  | versionGap (index expected got : Nat)
deriving DecidableEq, Repr

/-- A consistency error; it identifies the offending aggregate via `ref`. -/
structure ConsistencyError where
  ref : Ref
  kind : ConsistencyErrorKind
deriving DecidableEq, Repr

/-- First index whose event does not carry the aggregate reference `r`. -/
def findIdentityMismatch (r : Ref) : Nat → List Event → Option Nat
  | _, [] => none
  | i, e :: rest =>
    if e.job ≠ r then some i else findIdentityMismatch r (i + 1) rest

/-- First index `i > 0` with `E[i].version ≠ E[i-1].version + 1`
(`prev` is the version of the preceding event). -/
def findVersionGap : Nat → Nat → List Event → Option ConsistencyErrorKind
  | _, _, [] => none
  | i, prev, e :: rest =>
    if e.aggVersion ≠ prev + 1 then some (.versionGap i (prev + 1) e.aggVersion)
    else findVersionGap (i + 1) e.aggVersion rest

/-- Modelled from the spec: `aggregate.ValidateConsistency` (§4.3; the
aggregate package is not in the sources).  Rules, failing on the first
violation: every event carries the aggregate's reference, the first version
is the aggregate's current version plus one, and versions are contiguous. -/
def ValidateConsistency (a : Aggregate) (events : List Event) :
    Option ConsistencyError :=
  match findIdentityMismatch ⟨a.name, a.id⟩ 0 events with
  | some i => some ⟨⟨a.name, a.id⟩, .identityMismatch i⟩
  | none =>
    match events with
    | [] => none
    | e :: rest =>
      if e.aggVersion ≠ a.version + 1 then
        some ⟨⟨a.name, a.id⟩, .unexpectedStartVersion (a.version + 1) e.aggVersion⟩
      else
        (findVersionGap 1 e.aggVersion rest).map (fun k => ⟨⟨a.name, a.id⟩, k⟩)

/-- Modelled from the spec: `event.Sort (events, SortAggregateVersion,
SortAsc)` as used by the emit stage (the event sorter is not in the sources).
A stable sort by ascending aggregate version. -/
def sortByVersion (events : List Event) : List Event :=
  List.insertionSort (fun a b => a.aggVersion ≤ b.aggVersion) events

/-- Modelled from the spec: `softdelete.SoftDeleted` — true when any event of
the group carries the soft-delete marker. -/
def SoftDeleted (events : List Event) : Bool := events.any (·.softDeleted)

/-- The pipeline options collected by `stream.NewOf` (upstream error
channels omitted; see the module comment). -/
structure Options where
  isSorted : Bool
  isGrouped : Bool
  validateConsistency : Bool
  withSoftDeleted : Bool
  filters : List (Event → Bool)

/-- The option record produced by `NewOf` when no `Option` is passed:
only consistency validation is on. -/
def Options.default : Options := ⟨false, false, true, false, []⟩

/-- The accept stage's filter check: discard as soon as one filter rejects. -/
def shouldDiscard (opts : Options) (e : Event) : Bool :=
  opts.filters.any (fun f => ! f e)

/-- Events that survive the accept stage's filters, in input order. -/
def acceptedEvents (opts : Options) (input : List Event) : List Event :=
  input.filter (fun e => ! shouldDiscard opts e)

/-- Combined state of the accept and group stages:
`groups` is the group stage's map, `pending` and `prev` live in the accept
stage, and `served` records the group responses already handed to the emit
stage, in order. -/
structure AGState where
  groups : Ref → List Event
  pending : List Ref
  prev : Ref
  served : List (Ref × List Event)

/-- Initial accept/group state: empty map, empty pending set, zero `prev`. -/
def AGState.init : AGState := ⟨fun _ => [], [], ⟨"", 0⟩, []⟩

/-- Adding to the pending set (`pending[j] = true`): a no-op when present. -/
def insertPending (l : List Ref) (j : Ref) : List Ref :=
  if j ∈ l then l else l ++ [j]

/-- One accepted input event, without the filter check: append it to its
group, mark its reference pending and, in grouped mode, complete the
previous reference when the reference changes (serving its group at once
and deleting the group and the pending entry). -/
def agCore (opts : Options) (st : AGState) (e : Event) : AGState :=
  if opts.isGrouped = true ∧ st.prev.name ≠ "" ∧ st.prev ≠ e.job then
    { groups := fun r =>
        if r = st.prev then []
        else if r = e.job then st.groups e.job ++ [e] else st.groups r
      pending := (insertPending st.pending e.job).erase st.prev
      prev := e.job
      served := st.served ++
        [(st.prev,
          if st.prev = e.job then st.groups e.job ++ [e]
          else st.groups st.prev)] }
  else
    { groups := fun r =>
        if r = e.job then st.groups e.job ++ [e] else st.groups r
      pending := insertPending st.pending e.job
      prev := e.job
      served := st.served }

/-- One input event of the accept stage: drop it if a filter rejects it,
otherwise process it with `agCore`. -/
def agStep (opts : Options) (st : AGState) (e : Event) : AGState :=
  if shouldDiscard opts e then st else agCore opts st e

/-- The accept and group stages run over the whole (finite) input: the
group responses served to the emit stage, in order.  Boundary completions
of grouped mode come first; on input close the pending set is drained. -/
def acceptAndGroup (opts : Options) (input : List Event) :
    List (Ref × List Event) :=
  (input.foldl (agStep opts) AGState.init).served ++
    (input.foldl (agStep opts) AGState.init).pending.map
      (fun j => (j, (input.foldl (agStep opts) AGState.init).groups j))

/-- A history: the aggregate reference and the ordered events the applier
closure would replay on an aggregate. -/
structure History where
  ref : Ref
  events : List Event
deriving DecidableEq, Repr

/-- Outcome of the emit stage for one completed group. -/
inductive EmitAction where
  | emit (h : History)
  | fail (e : ConsistencyError)
  | skip
deriving DecidableEq, Repr

/-- The emit stage's sorting step: sort by ascending aggregate version
unless the `Sorted` option promises sorted input. -/
def prepareEvents (opts : Options) (g : List Event) : List Event :=
  if opts.isSorted then g else sortByVersion g

/-- Body of the emit stage's loop (`sortEvents`) for one completed group:
sort unless `Sorted`, validate against a fresh aggregate unless disabled
(surfacing the error and skipping the aggregate), drop soft-deleted groups
unless `WithSoftDeleted`, otherwise emit the history. -/
def emitJob (opts : Options) (j : Ref) (g : List Event) : EmitAction :=
  match
    (if opts.validateConsistency then
      ValidateConsistency (Aggregate.new j.name j.id) (prepareEvents opts g)
    else none) with
  | some err => .fail err
  | none =>
    if opts.withSoftDeleted = false ∧ SoftDeleted (prepareEvents opts g) = true
    then .skip
    else .emit ⟨j, prepareEvents opts g⟩

/-- One turn of the emit loop: append the emitted history to the history
stream, or the error to the error stream. -/
def emitStep (opts : Options) (acc : List History × List ConsistencyError)
    (pr : Ref × List Event) : List History × List ConsistencyError :=
  match emitJob opts pr.1 pr.2 with
  | .emit h => (acc.1 ++ [h], acc.2)
  | .fail e => (acc.1, acc.2 ++ [e])
  | .skip => acc

/-- The emit stage over all completed groups: the history stream and the
error stream, each in emission order. -/
def emitAll (opts : Options) (pairs : List (Ref × List Event)) :
    List History × List ConsistencyError :=
  pairs.foldl (emitStep opts) ([], [])

/-- The history (if any) the emit stage produces for one completed group. -/
def emitHistOf (opts : Options) (pr : Ref × List Event) : Option History :=
  match emitJob opts pr.1 pr.2 with
  | .emit h => some h
  | _ => none

/-- The error (if any) the emit stage produces for one completed group. -/
def emitErrOf (opts : Options) (pr : Ref × List Event) :
    Option ConsistencyError :=
  match emitJob opts pr.1 pr.2 with
  | .fail e => some e
  | _ => none

/-- The whole rebuild pipeline on a finite input stream. -/
def runPipeline (opts : Options) (input : List Event) :
    List History × List ConsistencyError :=
  emitAll opts (acceptAndGroup opts input)

/-- Grouped-input precondition, as block structure: blocks have pairwise
distinct references, and each block is a non-empty run of events of its
reference. -/
def BlocksWF (bs : List (Ref × List Event)) : Prop :=
  (bs.map Prod.fst).Nodup ∧ ∀ b ∈ bs, b.2 ≠ [] ∧ ∀ e ∈ b.2, e.job = b.1

/-- Concatenation of the blocks' event runs. -/
def flattenBlocks (bs : List (Ref × List Event)) : List Event :=
  (bs.map Prod.snd).flatten

/-- A list of events is chunked when all events of each aggregate reference
are contiguous — the documented precondition of the `Grouped` option. -/
def IsChunked (l : List Event) : Prop :=
  ∃ bs, BlocksWF bs ∧ l = flattenBlocks bs

/-- The pipeline's input precondition: in grouped mode, the events that
survive the filters arrive sequentially grouped by aggregate. -/
def GroupedOK (opts : Options) (input : List Event) : Prop :=
  opts.isGrouped = true → IsChunked (acceptedEvents opts input)

/-! ### Projection job and event-fetch cache (`project` package)

Go slices alias a backing array; to capture the copying (or aliasing)
behaviour of the cache and jobs, event slices live in an explicit heap and
values of type `Nat` are references (slice headers) into it. -/

/-- A heap of event slices; a slice reference is an index. -/
abbrev Heap := List (List Event)

/-- Allocate a fresh slice holding `v`; returns the new heap and the
reference. -/
def Heap.alloc (h : Heap) (v : List Event) : Heap × Nat := (h ++ [v], h.length)

/-- Dereference a slice. -/
def Heap.read (h : Heap) (r : Nat) : List Event := h.getD r []

/-- Mutate the slice behind reference `r` in place. -/
def Heap.write (h : Heap) (r : Nat) (v : List Event) : Heap := h.set r v

inductive SortKey where
  | time
  | aggregateName
  | aggregateID
  | aggregateVersion
deriving DecidableEq, Repr

inductive SortDir where
  | asc
  | desc
deriving DecidableEq, Repr

/-- The event query model, restricted to the fields `buildQuery` touches
(the query package is not in the sources). -/
structure Query where
  names : List String
  sortings : List (SortKey × SortDir)
  timeAfter : Option Int
deriving DecidableEq, Repr

/-- Modelled from the spec: `query.Merge` of two queries (the query package
is not in the sources) — set-union for name sets, intersection for time
ranges, concatenation (caller last) for sort keys. -/
def Query.merge (a b : Query) : Query :=
  { names := (a.names ++ b.names).dedup
    sortings := a.sortings ++ b.sortings
    timeAfter :=
      match a.timeAfter, b.timeAfter with
      | none, t => t
      | some s, none => some s
      | some s, some t => some (max s t) }

/-- The four ascending sort keys `baseJob.buildQuery` always installs. -/
def defaultSortings : List (SortKey × SortDir) :=
  [(.time, .asc), (.aggregateName, .asc), (.aggregateID, .asc),
   (.aggregateVersion, .asc)]

/-- The apply configuration (`applyConfig`). -/
structure ApplyConfig where
  fromBase : Bool
deriving DecidableEq, Repr

/-- An apply option mutates the configuration (`ApplyOption`). -/
abbrev ApplyOpt := ApplyConfig → ApplyConfig

/-- `configureApply`: fold the options over the zero configuration. -/
def configureApply (opts : List ApplyOpt) : ApplyConfig :=
  opts.foldl (fun c o => o c) ⟨false⟩

/-- A projection, as the job sees it: `latestEventTime = some t` when the
projection implements `latestEventTimeProvider`. -/
structure Projection where
  latestEventTime : Option Int
deriving DecidableEq, Repr

/-- The query-relevant fields of a `baseJob`: configured event names, the
subscription filter (`j.cfg.filter`) and the caller-supplied query. -/
structure BaseJob where
  eventNames : List String
  filter : Query
  query : Query
deriving DecidableEq, Repr

/-- `baseJob.buildQuery`: event names plus the four ascending sort keys;
when the projection provides `LatestEventTime` and `fromBase` is off, add a
time-after constraint; merge with the subscription filter and the job
query. -/
def buildQuery (j : BaseJob) (p : Option Projection) (cfg : ApplyConfig) :
    Query :=
  let q0 : Query := ⟨j.eventNames, defaultSortings, none⟩
  let q0 :=
    match p with
    | some pr =>
      match pr.latestEventTime, cfg.fromBase with
      | some t, false => { q0 with timeAfter := some t }
      | _, _ => q0
    | none => q0
  Query.merge (Query.merge q0 j.filter) j.query

/-- The cache key.  In the source the key is the sha-256 digest of the
formatted `(applyConfig, query)` pair (`cacheHasher.hash`, computed with
library code outside the sources); the pair itself is used here as an
injective stand-in for that fingerprint. -/
def cacheKey (cfg : ApplyConfig) (q : Query) : ApplyConfig × Query := (cfg, q)

/-- The cache state: the slice heap plus the key-to-canonical-slice map. -/
structure CacheState where
  heap : Heap
  entries : List ((ApplyConfig × Query) × Nat)

/-- Map lookup in the cache. -/
def lookupEntry (es : List ((ApplyConfig × Query) × Nat))
    (k : ApplyConfig × Query) : Option Nat :=
  (es.find? (fun e => e.1 = k)).map (·.2)

/-- Result of `cache.ensure`: the returned slice (or error), the new cache
state, and whether `fetch` was invoked. -/
structure EnsureResult where
  result : Except String Nat
  state : CacheState
  fetched : Bool

/-- `cache.ensure`: on a hit, hand out a fresh copy of the cached slice
without fetching; on a miss, invoke `fetch`; on fetch failure store nothing;
on success store the fetched slice as the canonical copy and hand the caller
a fresh copy.  `fetchResult` is the value `fetch` would produce; `fetched`
records whether it was consumed. -/
def ensure (st : CacheState) (cfg : ApplyConfig) (q : Query)
    (fetchResult : Except String (List Event)) : EnsureResult :=
  match lookupEntry st.entries (cacheKey cfg q) with
  | some r =>
    let evs := st.heap.read r
    let al := st.heap.alloc evs
    ⟨.ok al.2, ⟨al.1, st.entries⟩, false⟩
  | none =>
    match fetchResult with
    | .error e => ⟨.error e, st, true⟩
    | .ok evs =>
      let al1 := st.heap.alloc evs
      let al2 := al1.1.alloc evs
      ⟨.ok al2.2, ⟨al2.1, (cacheKey cfg q, al1.2) :: st.entries⟩, true⟩

/-- The event store, as consumed by the fetch closure: a deterministic map
from queries to either the drained event slice or an error. -/
abbrev Store := Query → Except String (List Event)

/-- Observable effects of an `EventsFor` call: whether the store was
queried (the fetch closure ran) and whether the projection's
`LatestEventTime` was consulted (inside `buildQuery`). -/
structure JobEffects where
  storeQueried : Bool
  consultedLatestEventTime : Bool
deriving DecidableEq, Repr

/-- Result of a job-level `EventsFor` call. -/
structure JobResult where
  result : Except String Nat
  state : CacheState
  effects : JobEffects

/-- `baseJob.EventsFor`/`eventsFor`: build the merged query and fetch the
events through the cache. -/
def BaseJob.EventsFor (j : BaseJob) (store : Store) (st : CacheState)
    (p : Option Projection) (cfg : ApplyConfig) : JobResult :=
  let q := buildQuery j p cfg
  let er := ensure st cfg q (store q)
  ⟨er.result, er.state,
    ⟨er.fetched,
      match p with
      | some pr => pr.latestEventTime.isSome && ! cfg.fromBase
      | none => false⟩⟩

/-- A continuous job: the base job plus the pre-materialised event slice
from the subscription (`some r` when the Go slice is non-nil). -/
structure ContinuousJob where
  base : BaseJob
  events : Option Nat

/-- `continuousJob.EventsFor`: when `fromBase` is off and the
pre-materialised slice is non-nil, return that slice itself; otherwise fall
through to the base job. -/
def ContinuousJob.EventsFor (j : ContinuousJob) (store : Store)
    (st : CacheState) (p : Option Projection) (opts : List ApplyOpt) :
    JobResult :=
  match (configureApply opts).fromBase, j.events with
  | false, some r => ⟨.ok r, st, ⟨false, false⟩⟩
  | _, _ => j.base.EventsFor store st p (configureApply opts)

/-- `continuousJob.Events`: `EventsFor` with a nil projection and no
options. -/
def ContinuousJob.Events (j : ContinuousJob) (store : Store)
    (st : CacheState) : JobResult :=
  j.EventsFor store st none []

/-- Cache well-formedness: every stored canonical reference points into the
heap. -/
def CacheState.Wf (st : CacheState) : Prop :=
  ∀ pr ∈ st.entries, pr.2 < st.heap.length

/-! ### `streams.FanIn` as a labelled transition system

One forwarding goroutine (worker) per input channel; the worker loops over
a two-way select — the `stopped` token versus its input — and forwards each
received value through a second select — the token versus the output send.
The output channel is closed once every worker has returned (`wg.Wait`).
A worker state tracks whether its input channel has been closed and whether
it currently holds a value it has taken from the input but not yet sent. -/

/-- State of one forwarding goroutine of `FanIn`. -/
inductive WorkerState (T : Type) where
  | idle (inClosed : Bool)
  | sending (v : T) (inClosed : Bool)
  | done (inClosed : Bool)
deriving DecidableEq, Repr

/-- Whether the worker's input channel has been closed. -/
def WorkerState.inClosed : WorkerState T → Bool
  | .idle b => b
  | .sending _ b => b
  | .done b => b

/-- Whether the worker has returned. -/
def WorkerState.isDone : WorkerState T → Bool
  | .done _ => true
  | _ => false

/-- Closing the worker's input channel. -/
def WorkerState.closeIn : WorkerState T → WorkerState T
  | .idle _ => .idle true
  | .sending v _ => .sending v true
  | .done _ => .done true

/-- Global state of a `FanIn` instance: the stop token, the workers, the
output channel's closed flag, and the values delivered to the consumer so
far. -/
structure FanInState (T : Type) where
  stopped : Bool
  workers : List (WorkerState T)
  outClosed : Bool
  delivered : List T
deriving DecidableEq, Repr

/-- The state right after `FanIn` returns, for `n` input channels. -/
def FanInState.init (T : Type) (n : Nat) : FanInState T :=
  ⟨false, List.replicate n (.idle false), false, []⟩

/-- The `stop` function: close the `stopped` token (via `sync.Once`). -/
def FanInState.stop (s : FanInState T) : FanInState T :=
  { s with stopped := true }

/-- One interleaved step of a `FanIn` instance and its environment. -/
inductive FanInStep : FanInState T → FanInState T → Prop where
  /-- The caller invokes the stop function. -/
  | stop (s : FanInState T) : FanInStep s s.stop
  /-- The producer of input `i` closes it. -/
  | closeInput (s : FanInState T) (i : Nat) (h : i < s.workers.length) :
      FanInStep s { s with workers := s.workers.set i s.workers[i].closeIn }
  /-- Worker `i` receives a value from its still-open input. -/
  | recv (s : FanInState T) (i : Nat) (v : T)
      (h : s.workers.get? i = some (.idle false)) :
      FanInStep s { s with workers := s.workers.set i (.sending v false) }
  /-- Worker `i` sends its held value to the consumer. -/
  | deliver (s : FanInState T) (i : Nat) (v : T) (b : Bool)
      (h : s.workers.get? i = some (.sending v b)) :
      FanInStep s
        { s with
          workers := s.workers.set i (.idle b)
          delivered := s.delivered ++ [v] }
  /-- Worker `i`, waiting on its input, observes the stop token and
  returns. -/
  | observeStopIdle (s : FanInState T) (i : Nat) (b : Bool)
      (h : s.workers.get? i = some (.idle b)) (hs : s.stopped = true) :
      FanInStep s { s with workers := s.workers.set i (.done b) }
  /-- Worker `i`, holding a value, observes the stop token, drops the value
  and returns. -/
  | observeStopSending (s : FanInState T) (i : Nat) (v : T) (b : Bool)
      (h : s.workers.get? i = some (.sending v b)) (hs : s.stopped = true) :
      FanInStep s { s with workers := s.workers.set i (.done b) }
  /-- Worker `i` observes its closed, drained input (`ok = false`) and
  returns. -/
  | observeClosed (s : FanInState T) (i : Nat)
      (h : s.workers.get? i = some (.idle true)) :
      FanInStep s { s with workers := s.workers.set i (.done true) }
  /-- Every worker has returned (`wg.Wait`); the output channel is
  closed. -/
  | closeOut (s : FanInState T)
      (hall : ∀ w ∈ s.workers, w.isDone = true) (hnc : s.outClosed = false) :
      FanInStep s { s with outClosed := true }

/-- Reachability from the freshly constructed instance. -/
def FanInReachable (T : Type) (n : Nat) (s : FanInState T) : Prop :=
  Relation.ReflTransGen FanInStep (FanInState.init T n) s

/-! ### Proof infrastructure -/

/-- What the emit stage receives, related to the accepted input: pairwise
distinct references, each paired with exactly the accepted events of that
reference, covering exactly the references occurring in the accepted
input. -/
def PairsSpec (pairs : List (Ref × List Event)) (acc : List Event) : Prop :=
  (pairs.map Prod.fst).Nodup ∧
  (∀ pr ∈ pairs, pr.2 = acc.filter (fun e => e.job = pr.1)) ∧
  (∀ r : Ref, r ∈ pairs.map Prod.fst ↔ r ∈ acc.map Event.job)

/-- Unconditional accept/group invariant: groups and served responses hold
only accepted events of their own reference, no accepted event is lost, and
a reference with a non-empty group is pending. -/
def AGInvBase (acc : List Event) (st : AGState) : Prop :=
  (∀ r, ∀ e ∈ st.groups r, e ∈ acc ∧ e.job = r) ∧
  (∀ pr ∈ st.served, ∀ e ∈ pr.2, e ∈ acc ∧ e.job = pr.1) ∧
  (∀ e ∈ acc, e ∈ st.groups e.job ∨ ∃ pr ∈ st.served, e ∈ pr.2) ∧
  (∀ r, st.groups r ≠ [] → r ∈ st.pending)

/-- Accept/group invariant in ungrouped mode: nothing is served early, the
pending set lists each seen reference once, and each group holds exactly
the accepted events of its reference. -/
def AGInvUngrouped (acc : List Event) (st : AGState) : Prop :=
  st.served = [] ∧ st.pending.Nodup ∧
  (∀ r : Ref, r ∈ st.pending ↔ ∃ e ∈ acc, e.job = r) ∧
  (∀ r, st.groups r = acc.filter (fun e => e.job = r))

/-- Accept/group invariant in grouped mode, after the blocks `done` have
been folded: the previous reference is the last block's, the boundary has
served every earlier block with a non-empty name, the pending set holds the
remaining block references in order, and their groups are intact. -/
def GInv (done : List (Ref × List Event)) (st : AGState) : Prop :=
  st.prev = ((done.map Prod.fst).getLast?).getD ⟨"", 0⟩ ∧
  st.served = done.dropLast.filter (fun b => decide (b.1.name ≠ "")) ∧
  st.pending = (done.map Prod.fst).filter
    (fun r => decide (r.name = "" ∨ (done.map Prod.fst).getLast? = some r)) ∧
  (∀ r, st.groups r =
    if r ∈ st.pending then
      (flattenBlocks done).filter (fun e => e.job = r)
    else [])

/-! ### Concrete inputs used by witnesses and counterexamples -/

def refA : Ref := ⟨"foo", 1⟩

def refB : Ref := ⟨"bar", 2⟩

/-- Version-1 event of aggregate `refA`. -/
def evA1 : Event := ⟨1, "created", 0, "foo", 1, 1, false⟩

/-- Version-2 event of aggregate `refA`. -/
def evA2 : Event := ⟨2, "updated", 1, "foo", 1, 2, false⟩

/-- Version-3 event of aggregate `refA` (its version-2 predecessor missing
from the inputs below). -/
def evA3 : Event := ⟨3, "updated", 2, "foo", 1, 3, false⟩

/-- Version-3 event of aggregate `refA` carrying the soft-delete marker. -/
def evA3soft : Event := ⟨4, "deleted", 2, "foo", 1, 3, true⟩

/-- Version-1 event of aggregate `refB`. -/
def evB1 : Event := ⟨5, "created", 0, "bar", 2, 1, false⟩

/-- Version-2 event of aggregate `refA` carrying the soft-delete marker
(contiguous with `evA1`). -/
def evA2soft : Event := ⟨6, "deleted", 1, "foo", 1, 2, true⟩

/-- Progress measure of one `FanIn` worker: number of steps it is away
from returning once shutdown is possible. -/
def WorkerState.wsize : WorkerState T → Nat
  | .idle _ => 1
  | .sending _ _ => 2
  | .done _ => 0

/-- Progress measure of a `FanIn` instance. -/
def FanInState.size (s : FanInState T) : Nat :=
  (s.workers.map WorkerState.wsize).sum

/-- Safety invariant of `FanIn`: the output only closes after every worker
has returned, and a worker only returns after the stop token was set or
its input closed. -/
def FanInInv (s : FanInState T) : Prop :=
  (s.outClosed = true → ∀ w ∈ s.workers, w.isDone = true) ∧
  (∀ w ∈ s.workers, w.isDone = true →
    s.stopped = true ∨ w.inClosed = true)

/-! ## Lemmas about the consistency validator -/

theorem findVersionGap_none (rest : List Event) : ∀ i prev,
    findVersionGap i prev rest = none →
    rest.map (·.aggVersion) = List.range' (prev + 1) rest.length := by
  induction rest with
  | nil => intro i prev _; rfl
  | cons e rest ih =>
    intro i prev h
    unfold findVersionGap at h
    split at h
    · exact absurd h (by simp)
    · rename_i hv
      rw [not_not] at hv
      simp only [List.map_cons, List.length_cons, List.range'_succ]
      refine congrArg₂ _ hv ?_
      have := ih (i + 1) e.aggVersion h
      rw [this, hv]

theorem validate_none_versions (a : Aggregate) (evs : List Event)
    (h : ValidateConsistency a evs = none) :
    evs.map (·.aggVersion) = List.range' (a.version + 1) evs.length := by
  cases evs with
  | nil => rfl
  | cons e rest =>
    unfold ValidateConsistency at h
    split at h
    · exact absurd h (by simp)
    · simp only [] at h
      split at h
      · exact absurd h (by simp)
      · rename_i hv
        rw [not_not] at hv
        rw [Option.map_eq_none'] at h
        simp only [List.map_cons, List.length_cons, List.range'_succ]
        refine congrArg₂ _ hv ?_
        have := findVersionGap_none rest 1 e.aggVersion h
        rw [this, hv]

theorem findIdentityMismatch_none (r : Ref) (evs : List Event) : ∀ i,
    (∀ e ∈ evs, e.job = r) → findIdentityMismatch r i evs = none := by
  induction evs with
  | nil => intro i _; rfl
  | cons e rest ih =>
    intro i h
    unfold findIdentityMismatch
    rw [if_neg (by simp [h e (by simp)])]
    exact ih (i + 1) (fun e' he' => h e' (by simp [he']))

/-- Any validator error identifies the aggregate it was called with. -/
theorem validate_some_ref (a : Aggregate) (evs : List Event)
    (err : ConsistencyError) (h : ValidateConsistency a evs = some err) :
    err.ref = ⟨a.name, a.id⟩ := by
  unfold ValidateConsistency at h
  split at h
  · rw [Option.some_inj] at h
    rw [← h]
  · split at h
    · exact absurd h (by simp)
    · split at h
      · rw [Option.some_inj] at h
        rw [← h]
      · rw [Option.map_eq_some'] at h
        obtain ⟨k, _, hek⟩ := h
        rw [← hek]

theorem findVersionGap_some_kind (rest : List Event) : ∀ i prev k,
    findVersionGap i prev rest = some k →
    ∃ a x g, k = ConsistencyErrorKind.versionGap a x g := by
  induction rest with
  | nil => intro i prev k hk; exact absurd hk (by simp [findVersionGap])
  | cons e rest ih =>
    intro i prev k hk
    unfold findVersionGap at hk
    split at hk
    · rw [Option.some_inj] at hk
      exact ⟨_, _, _, hk.symm⟩
    · exact ih _ _ k hk

/-- On an identity-homogeneous event list the validator can only fail on
versions: an unexpected start version or a gap. -/
theorem validate_homogeneous_kind (a : Aggregate) (evs : List Event)
    (hom : ∀ e ∈ evs, e.job = ⟨a.name, a.id⟩) (err : ConsistencyError)
    (h : ValidateConsistency a evs = some err) :
    err.ref = ⟨a.name, a.id⟩ ∧
      ((∃ x g, err.kind = .unexpectedStartVersion x g) ∨
        ∃ i x g, err.kind = .versionGap i x g) := by
  refine ⟨validate_some_ref a evs err h, ?_⟩
  unfold ValidateConsistency at h
  split at h
  · rename_i i hi
    rw [findIdentityMismatch_none _ _ 0 hom] at hi
    exact absurd hi (by simp)
  · split at h
    · exact absurd h (by simp)
    · split at h
      · rw [Option.some_inj] at h
        exact Or.inl ⟨_, _, by rw [← h]⟩
      · rw [Option.map_eq_some'] at h
        obtain ⟨k, hk, hek⟩ := h
        obtain ⟨i, x, g, hkk⟩ := findVersionGap_some_kind _ _ _ _ hk
        exact Or.inr ⟨i, x, g, by rw [← hek, hkk]⟩

/-- The validator never fails on the empty list. -/
theorem validate_nil (a : Aggregate) : ValidateConsistency a [] = none := rfl

/-! ## Lemmas about the emit stage -/

theorem emitStep_foldl (opts : Options) (pairs : List (Ref × List Event)) :
    ∀ acc, pairs.foldl (emitStep opts) acc =
      (acc.1 ++ pairs.filterMap (emitHistOf opts),
       acc.2 ++ pairs.filterMap (emitErrOf opts)) := by
  induction pairs with
  | nil => intro acc; simp
  | cons pr rest ih =>
    intro acc
    rw [List.foldl_cons, ih]
    simp only [List.filterMap_cons]
    unfold emitStep emitHistOf emitErrOf
    rcases he : emitJob opts pr.1 pr.2 with h | e | _ <;> simp [he]

theorem emitAll_eq (opts : Options) (pairs : List (Ref × List Event)) :
    emitAll opts pairs =
      (pairs.filterMap (emitHistOf opts), pairs.filterMap (emitErrOf opts)) := by
  unfold emitAll
  rw [emitStep_foldl]
  simp

theorem mem_histories_iff (opts : Options) (input : List Event) (h : History) :
    h ∈ (runPipeline opts input).1 ↔
      ∃ pr ∈ acceptAndGroup opts input, emitHistOf opts pr = some h := by
  unfold runPipeline
  rw [emitAll_eq]
  simp [List.mem_filterMap]

theorem mem_errors_iff (opts : Options) (input : List Event)
    (e : ConsistencyError) :
    e ∈ (runPipeline opts input).2 ↔
      ∃ pr ∈ acceptAndGroup opts input, emitErrOf opts pr = some e := by
  unfold runPipeline
  rw [emitAll_eq]
  simp [List.mem_filterMap]

theorem emitHistOf_emit (opts : Options) (pr : Ref × List Event) (h : History)
    (he : emitHistOf opts pr = some h) : emitJob opts pr.1 pr.2 = .emit h := by
  unfold emitHistOf at he
  split at he
  · rename_i h' hh
    rw [Option.some_inj] at he
    rw [hh, he]
  · exact absurd he (by simp)

theorem emitErrOf_fail (opts : Options) (pr : Ref × List Event)
    (e : ConsistencyError) (he : emitErrOf opts pr = some e) :
    emitJob opts pr.1 pr.2 = .fail e := by
  unfold emitErrOf at he
  split at he
  · rename_i e' hh
    rw [Option.some_inj] at he
    rw [hh, he]
  · exact absurd he (by simp)

/-- An emitted history carries its group's reference and the prepared
(sorted unless `Sorted`) group events, the group passed validation when it
was enabled, and it was not dropped as soft-deleted. -/
theorem emitJob_emit_inv (opts : Options) (j : Ref) (g : List Event)
    (h : History) (he : emitJob opts j g = .emit h) :
    h.ref = j ∧ h.events = prepareEvents opts g ∧
      (opts.validateConsistency = true →
        ValidateConsistency (Aggregate.new j.name j.id)
          (prepareEvents opts g) = none) ∧
      (opts.withSoftDeleted = false →
        SoftDeleted (prepareEvents opts g) = false) := by
  unfold emitJob at he
  cases hV : (if opts.validateConsistency then
      ValidateConsistency (Aggregate.new j.name j.id) (prepareEvents opts g)
    else none) with
  | some err =>
    rw [hV] at he
    exact absurd he (by simp)
  | none =>
    rw [hV] at he
    simp only [] at he
    split at he
    · exact absurd he (by simp)
    · rename_i hsd
      rw [EmitAction.emit.injEq] at he
      refine ⟨by rw [← he], by rw [← he], ?_, ?_⟩
      · intro hvc
        rw [hvc] at hV
        simpa using hV
      · intro hws
        cases hb : SoftDeleted (prepareEvents opts g) with
        | false => rfl
        | true => exact absurd ⟨hws, hb⟩ hsd

/-- An error surfaced by the emit stage carries its group's reference, and
comes from the validator with validation enabled. -/
theorem emitJob_fail_inv (opts : Options) (j : Ref) (g : List Event)
    (e : ConsistencyError) (he : emitJob opts j g = .fail e) :
    e.ref = j ∧ opts.validateConsistency = true ∧
      ValidateConsistency (Aggregate.new j.name j.id)
        (prepareEvents opts g) = some e := by
  unfold emitJob at he
  cases hV : (if opts.validateConsistency then
      ValidateConsistency (Aggregate.new j.name j.id) (prepareEvents opts g)
    else none) with
  | none =>
    rw [hV] at he
    simp only [] at he
    split at he <;> exact absurd he (by simp)
  | some err =>
    rw [hV] at he
    simp only [EmitAction.fail.injEq] at he
    subst he
    cases hvc : opts.validateConsistency with
    | false =>
      rw [hvc] at hV
      exact absurd hV (by simp)
    | true =>
      rw [hvc] at hV
      simp only [if_true] at hV
      have hr := validate_some_ref _ _ _ hV
      exact ⟨hr.trans rfl, rfl, hV⟩

/-! ## Lemmas about the accept and group stages -/

theorem mem_insertPending_self (l : List Ref) (j : Ref) :
    j ∈ insertPending l j := by
  unfold insertPending
  split
  · assumption
  · simp

theorem mem_insertPending_iff (l : List Ref) (j r : Ref) :
    r ∈ insertPending l j ↔ r ∈ l ∨ r = j := by
  unfold insertPending
  split
  · rename_i hj
    constructor
    · exact Or.inl
    · rintro (hr | rfl)
      · exact hr
      · exact hj
  · simp

theorem insertPending_nodup (l : List Ref) (j : Ref) (h : l.Nodup) :
    (insertPending l j).Nodup := by
  unfold insertPending
  split
  · exact h
  · rename_i hj
    simpa [List.nodup_append] using ⟨h, fun hmem => hj hmem⟩

/-- Folding the accept stage over the raw input is folding its core over
the events that survive the filters. -/
theorem foldl_agStep_core (opts : Options) : ∀ (input : List Event)
    (st : AGState), input.foldl (agStep opts) st =
      (acceptedEvents opts input).foldl (agCore opts) st := by
  intro input
  induction input with
  | nil => intro st; rfl
  | cons e l ih =>
    intro st
    simp only [acceptedEvents, List.filter_cons] at ih ⊢
    rw [List.foldl_cons]
    unfold agStep
    cases hd : shouldDiscard opts e with
    | true =>
      simp only [hd, if_true, Bool.not_true, if_false]
      exact ih st
    | false =>
      simp only [hd, if_false, Bool.not_false, if_true, List.foldl_cons]
      exact ih (agCore opts st e)

/-- The accept/group core preserves the unconditional invariant. -/
theorem agInvBase_step (opts : Options) (acc : List Event) (st : AGState)
    (e : Event) (h : AGInvBase acc st) :
    AGInvBase (acc ++ [e]) (agCore opts st e) := by
  obtain ⟨h1, h2, h3, h4⟩ := h
  have hgroups1 : ∀ r, ∀ x ∈ (if r = e.job then st.groups e.job ++ [e]
      else st.groups r), x ∈ acc ++ [e] ∧ x.job = r := by
    intro r x hx
    split at hx
    · rename_i hr
      rcases List.mem_append.1 hx with hx | hx
      · obtain ⟨hm, hj⟩ := h1 e.job x hx
        exact ⟨List.mem_append_left _ hm, by rw [hj, hr]⟩
      · rw [List.mem_singleton] at hx
        subst hx
        exact ⟨List.mem_append_right _ (by simp), by rw [hr]⟩
    · obtain ⟨hm, hj⟩ := h1 r x hx
      exact ⟨List.mem_append_left _ hm, hj⟩
  unfold agCore
  split
  · rename_i hb
    obtain ⟨hg, hprev, hne⟩ := hb
    refine ⟨?_, ?_, ?_, ?_⟩
    · intro r x hx
      simp only [] at hx
      split at hx
      · exact absurd hx (by simp)
      · exact hgroups1 r x hx
    · intro pr hpr x hx
      rcases List.mem_append.1 hpr with hpr | hpr
      · obtain ⟨hm, hj⟩ := h2 pr hpr x hx
        exact ⟨List.mem_append_left _ hm, hj⟩
      · rw [List.mem_singleton] at hpr
        subst hpr
        simp only [] at hx
        rw [if_neg hne] at hx
        obtain ⟨hm, hj⟩ := h1 st.prev x hx
        exact ⟨List.mem_append_left _ hm, hj⟩
    · intro x hx
      rcases List.mem_append.1 hx with hx | hx
      · rcases h3 x hx with hx' | ⟨pr, hpr, hx'⟩
        · by_cases hxp : x.job = st.prev
          · refine Or.inr ⟨(st.prev,
              if st.prev = e.job then st.groups e.job ++ [e]
              else st.groups st.prev),
              List.mem_append_right _ (by simp), ?_⟩
            simp only []
            rw [if_neg hne]
            rw [hxp] at hx'
            exact hx'
          · refine Or.inl ?_
            simp only []
            rw [if_neg hxp]
            split
            · rename_i hxj
              exact List.mem_append_left _ (by rw [← hxj]; exact hx')
            · exact hx'
        · exact Or.inr ⟨pr, List.mem_append_left _ hpr, hx'⟩
      · rw [List.mem_singleton] at hx
        subst hx
        refine Or.inl ?_
        simp only []
        rw [if_neg (fun hc => hne hc.symm)]
        simp
    · intro r hr
      simp only [] at hr
      by_cases hrp : r = st.prev
      · rw [if_pos hrp] at hr
        exact absurd rfl hr
      · rw [if_neg hrp] at hr
        rw [List.mem_erase_of_ne hrp]
        by_cases hrj : r = e.job
        · rw [hrj]
          exact mem_insertPending_self _ _
        · rw [if_neg hrj] at hr
          rw [mem_insertPending_iff]
          exact Or.inl (h4 r hr)
  · refine ⟨?_, ?_, ?_, ?_⟩
    · intro r x hx
      simp only [] at hx
      exact hgroups1 r x hx
    · intro pr hpr x hx
      obtain ⟨hm, hj⟩ := h2 pr hpr x hx
      exact ⟨List.mem_append_left _ hm, hj⟩
    · intro x hx
      rcases List.mem_append.1 hx with hx | hx
      · rcases h3 x hx with hx' | ⟨pr, hpr, hx'⟩
        · refine Or.inl ?_
          simp only []
          split
          · rename_i hxj
            exact List.mem_append_left _ (by rw [← hxj]; exact hx')
          · exact hx'
        · exact Or.inr ⟨pr, hpr, hx'⟩
      · rw [List.mem_singleton] at hx
        subst hx
        refine Or.inl ?_
        simp
    · intro r hr
      simp only [] at hr
      rw [mem_insertPending_iff]
      by_cases hrj : r = e.job
      · exact Or.inr hrj
      · rw [if_neg hrj] at hr
        exact Or.inl (h4 r hr)

/-- The unconditional invariant holds after the whole input. -/
theorem agInvBase_fold (opts : Options) (input : List Event) :
    AGInvBase (acceptedEvents opts input)
      (input.foldl (agStep opts) AGState.init) := by
  rw [foldl_agStep_core]
  generalize acceptedEvents opts input = acc
  induction acc using List.reverseRecOn with
  | nil =>
    exact ⟨fun r x hx => absurd hx (by simp [AGState.init]),
      fun pr hpr => absurd hpr (by simp [AGState.init]),
      fun x hx => absurd hx (by simp),
      fun r hr => absurd rfl hr⟩
  | append_singleton l e ih =>
    rw [List.foldl_append, List.foldl_cons, List.foldl_nil]
    exact agInvBase_step opts l _ e ih

/-- Every event the emit stage receives is an accepted event of the pair's
reference, and no accepted event is lost. -/
theorem acceptAndGroup_events (opts : Options) (input : List Event) :
    (∀ pr ∈ acceptAndGroup opts input, ∀ e ∈ pr.2,
      e ∈ acceptedEvents opts input ∧ e.job = pr.1) ∧
    (∀ e ∈ acceptedEvents opts input,
      ∃ pr ∈ acceptAndGroup opts input, e ∈ pr.2) := by
  have hinv := agInvBase_fold opts input
  obtain ⟨h1, h2, h3, h4⟩ := hinv
  unfold acceptAndGroup
  constructor
  · intro pr hpr e he
    rcases List.mem_append.1 hpr with hpr | hpr
    · exact h2 pr hpr e he
    · rw [List.mem_map] at hpr
      obtain ⟨j, _, hj⟩ := hpr
      subst hj
      exact h1 j e he
  · intro e he
    rcases h3 e he with hg | ⟨pr, hpr, hx⟩
    · have hne : (input.foldl (agStep opts) AGState.init).groups e.job ≠ [] := by
        intro hc
        rw [hc] at hg
        exact absurd hg (List.not_mem_nil e)
      refine ⟨(e.job, (input.foldl (agStep opts) AGState.init).groups e.job),
        List.mem_append_right _ ?_, hg⟩
      rw [List.mem_map]
      exact ⟨e.job, h4 e.job hne, rfl⟩
    · exact ⟨pr, List.mem_append_left _ hpr, hx⟩

/-! ## Ungrouped mode: the pending-set drain serves each reference once -/

theorem agInvUngrouped_step (opts : Options) (hng : opts.isGrouped = false)
    (acc : List Event) (st : AGState) (e : Event)
    (h : AGInvUngrouped acc st) :
    AGInvUngrouped (acc ++ [e]) (agCore opts st e) := by
  obtain ⟨hs, hnd, hp, hg⟩ := h
  unfold agCore
  rw [if_neg (by simp [hng])]
  refine ⟨hs, insertPending_nodup _ _ hnd, ?_, ?_⟩
  · intro r
    rw [mem_insertPending_iff, hp r]
    constructor
    · rintro (⟨x, hx, hj⟩ | rfl)
      · exact ⟨x, List.mem_append_left _ hx, hj⟩
      · exact ⟨e, List.mem_append_right _ (by simp), rfl⟩
    · rintro ⟨x, hx, hj⟩
      rcases List.mem_append.1 hx with hx | hx
      · exact Or.inl ⟨x, hx, hj⟩
      · rw [List.mem_singleton] at hx
        subst hx
        exact Or.inr hj.symm
  · intro r
    simp only []
    rw [List.filter_append]
    by_cases hrj : r = e.job
    · subst hrj
      simp [hg]
    · have hne : ¬(e.job = r) := fun hc => hrj hc.symm
      simp [hrj, hg, hne]

theorem agInvUngrouped_fold (opts : Options) (hng : opts.isGrouped = false)
    (input : List Event) :
    AGInvUngrouped (acceptedEvents opts input)
      (input.foldl (agStep opts) AGState.init) := by
  rw [foldl_agStep_core]
  generalize acceptedEvents opts input = acc
  induction acc using List.reverseRecOn with
  | nil =>
    refine ⟨rfl, List.nodup_nil, ?_, ?_⟩
    · intro r
      simp [AGState.init]
    · intro r
      simp [AGState.init]
  | append_singleton l e ih =>
    rw [List.foldl_append, List.foldl_cons, List.foldl_nil]
    exact agInvUngrouped_step opts hng l _ e ih

theorem pairsSpec_ungrouped (opts : Options) (input : List Event)
    (hng : opts.isGrouped = false) :
    PairsSpec (acceptAndGroup opts input) (acceptedEvents opts input) := by
  obtain ⟨hs, hnd, hp, hg⟩ := agInvUngrouped_fold opts hng input
  unfold acceptAndGroup
  rw [hs]
  simp only [List.nil_append]
  refine ⟨?_, ?_, ?_⟩
  · rw [List.map_map]
    have : (Prod.fst ∘ fun j =>
        (j, (input.foldl (agStep opts) AGState.init).groups j)) = id := by
      funext j
      rfl
    rw [this, List.map_id]
    exact hnd
  · intro pr hpr
    rw [List.mem_map] at hpr
    obtain ⟨j, _, hj⟩ := hpr
    rw [← hj]
    exact hg j
  · intro r
    rw [List.map_map]
    have hcomp : (Prod.fst ∘ fun j =>
        (j, (input.foldl (agStep opts) AGState.init).groups j)) = id := by
      funext j
      rfl
    rw [hcomp, List.map_id, hp r, List.mem_map]

/-! ## Grouped mode: block structure lemmas -/

theorem blocksWF_append_left (l1 l2 : List (Ref × List Event))
    (h : BlocksWF (l1 ++ l2)) : BlocksWF l1 := by
  obtain ⟨hnd, hb⟩ := h
  rw [List.map_append] at hnd
  exact ⟨hnd.of_append_left, fun b hb' => hb b (List.mem_append_left _ hb')⟩

theorem flattenBlocks_concat (bs : List (Ref × List Event))
    (b : Ref × List Event) :
    flattenBlocks (bs ++ [b]) = flattenBlocks bs ++ b.2 := by
  unfold flattenBlocks
  rw [List.map_append, List.flatten_append]
  simp

theorem mem_flattenBlocks (bs : List (Ref × List Event)) (e : Event) :
    e ∈ flattenBlocks bs ↔ ∃ b ∈ bs, e ∈ b.2 := by
  unfold flattenBlocks
  rw [List.mem_flatten]
  constructor
  · rintro ⟨l, hl, he⟩
    rw [List.mem_map] at hl
    obtain ⟨b, hb, hbl⟩ := hl
    exact ⟨b, hb, by rw [hbl]; exact he⟩
  · rintro ⟨b, hb, he⟩
    exact ⟨b.2, List.mem_map_of_mem _ hb, he⟩

theorem flattenBlocks_job_mem (bs : List (Ref × List Event))
    (hwf : BlocksWF bs) (e : Event) (he : e ∈ flattenBlocks bs) :
    e.job ∈ bs.map Prod.fst := by
  rw [mem_flattenBlocks] at he
  obtain ⟨b, hb, he⟩ := he
  rw [(hwf.2 b hb).2 e he]
  exact List.mem_map_of_mem _ hb

theorem flattenBlocks_filter_not_mem (bs : List (Ref × List Event))
    (hwf : BlocksWF bs) (r : Ref) (hr : r ∉ bs.map Prod.fst) :
    (flattenBlocks bs).filter (fun e => e.job = r) = [] := by
  rw [List.filter_eq_nil_iff]
  intro e he
  simp only [decide_eq_true_eq]
  intro hc
  exact hr (by rw [← hc]; exact flattenBlocks_job_mem bs hwf e he)

theorem flattenBlocks_filter (bs : List (Ref × List Event))
    (hwf : BlocksWF bs) : ∀ b ∈ bs,
    (flattenBlocks bs).filter (fun e => e.job = b.1) = b.2 := by
  induction bs with
  | nil => intro b hb; exact absurd hb (List.not_mem_nil b)
  | cons b0 rest ih =>
    intro b hb
    have hfl : flattenBlocks (b0 :: rest) = b0.2 ++ flattenBlocks rest := by
      unfold flattenBlocks
      simp
    obtain ⟨hnd, hmem⟩ := hwf
    rw [List.map_cons, List.nodup_cons] at hnd
    have hwfrest : BlocksWF rest :=
      ⟨hnd.2, fun b' hb' => hmem b' (List.mem_cons_of_mem _ hb')⟩
    rcases List.mem_cons.1 hb with rfl | hb
    · rw [hfl, List.filter_append]
      have h1 : b.2.filter (fun e => e.job = b.1) = b.2 :=
        List.filter_eq_self.2 (fun e he => by
          simp [(hmem b (by simp)).2 e he])
      have h2 : (flattenBlocks rest).filter (fun e => e.job = b.1) = [] :=
        flattenBlocks_filter_not_mem rest hwfrest b.1 hnd.1
      rw [h1, h2, List.append_nil]
    · rw [hfl, List.filter_append]
      have h1 : b0.2.filter (fun e => e.job = b.1) = [] := by
        rw [List.filter_eq_nil_iff]
        intro e he
        simp only [decide_eq_true_eq]
        rw [(hmem b0 (by simp)).2 e he]
        intro hc
        exact hnd.1 (by rw [hc]; exact List.mem_map_of_mem _ hb)
      rw [h1, List.nil_append]
      exact ih hwfrest b hb

/-- Folding the core over a run of events of the current reference only
extends that reference's group. -/
theorem agCore_run (opts : Options) (r : Ref) (es : List Event)
    (hom : ∀ e ∈ es, e.job = r) : ∀ st : AGState, st.prev = r →
    r ∈ st.pending →
    es.foldl (agCore opts) st =
      { st with groups := fun x =>
          if x = r then st.groups r ++ es else st.groups x } := by
  induction es with
  | nil =>
    intro st _ _
    have : (fun x => if x = r then st.groups r ++ [] else st.groups x) =
        st.groups := by
      funext x
      split
      · rename_i hx
        rw [List.append_nil, hx]
      · rfl
    rw [List.foldl_nil, this]
  | cons e rest ih =>
    intro st hprev hpend
    have hej : e.job = r := hom e (by simp)
    rw [List.foldl_cons]
    have hcore : agCore opts st e =
        { st with
          groups := fun x =>
            if x = e.job then st.groups e.job ++ [e] else st.groups x
          pending := insertPending st.pending e.job
          prev := e.job } := by
      unfold agCore
      rw [if_neg (fun hc => hc.2.2 (by rw [hprev, hej]))]
    rw [hcore]
    have hpend' : r ∈ insertPending st.pending e.job := by
      rw [mem_insertPending_iff]
      exact Or.inl hpend
    have hip : insertPending st.pending e.job = st.pending := by
      unfold insertPending
      rw [if_pos (by rw [hej]; exact hpend)]
    rw [ih (fun x hx => hom x (List.mem_cons_of_mem _ hx)) _ hej hpend']
    subst hej
    rw [AGState.mk.injEq]
    refine ⟨?_, hip, hprev.symm, rfl⟩
    funext x
    by_cases hx : x = e.job
    · subst hx
      simp
    · simp [hx]

theorem map_fst_concat (done : List (Ref × List Event)) (r : Ref)
    (es : List Event) :
    (done ++ [(r, es)]).map Prod.fst = done.map Prod.fst ++ [r] := by
  rw [List.map_append]
  rfl

/-- Assembling the grouped invariant for a new block, from the state right
after the block's first event. -/
theorem gInv_assemble (opts : Options) (done : List (Ref × List Event))
    (r : Ref) (e : Event) (rest : List Event) (st1 : AGState)
    (hwf : BlocksWF (done ++ [(r, e :: rest)]))
    (f1 : st1.prev = r)
    (f2 : st1.pending =
      (done.map Prod.fst).filter (fun x => decide (x.name = "")) ++ [r])
    (f3 : st1.served = done.filter (fun b => decide (b.1.name ≠ "")))
    (f4 : st1.groups r = [e])
    (f5 : ∀ x, x ≠ r → st1.groups x =
      if x ∈ (done.map Prod.fst).filter (fun x => decide (x.name = "")) then
        (flattenBlocks done).filter (fun ev => ev.job = x)
      else []) :
    GInv (done ++ [(r, e :: rest)]) (rest.foldl (agCore opts) st1) := by
  have hwfdone : BlocksWF done := blocksWF_append_left _ _ hwf
  have hrnew : r ∉ done.map Prod.fst := by
    have := hwf.1
    rw [map_fst_concat, List.nodup_append] at this
    intro hc
    exact this.2.2 hc (by simp)
  have hom : ∀ ev ∈ e :: rest, ev.job = r :=
    (hwf.2 (r, e :: rest) (by simp)).2
  have homrest : ∀ ev ∈ rest, ev.job = r :=
    fun ev hev => hom ev (List.mem_cons_of_mem _ hev)
  have hrpend : r ∈ st1.pending := by
    rw [f2]
    exact List.mem_append_right _ (by simp)
  rw [agCore_run opts r rest homrest st1 f1 hrpend]
  have hlast : ((done ++ [(r, e :: rest)]).map Prod.fst).getLast? = some r := by
    rw [map_fst_concat]
    exact List.getLast?_concat _
  have hpend2 :
      ((done ++ [(r, e :: rest)]).map Prod.fst).filter (fun x =>
        decide (x.name = "" ∨
          ((done ++ [(r, e :: rest)]).map Prod.fst).getLast? = some x)) =
      (done.map Prod.fst).filter (fun x => decide (x.name = "")) ++ [r] := by
    simp only [hlast]
    rw [map_fst_concat, List.filter_append]
    have h1 : (done.map Prod.fst).filter
        (fun x => decide (x.name = "" ∨ some r = some x)) =
        (done.map Prod.fst).filter (fun x => decide (x.name = "")) := by
      apply List.filter_congr
      intro x hx
      rw [decide_eq_decide]
      constructor
      · rintro (hn | hsome)
        · exact hn
        · rw [Option.some_inj] at hsome
          exact absurd (by rw [hsome]; exact hx) hrnew
      · exact Or.inl
    have h2 : ([r] : List Ref).filter
        (fun x => decide (x.name = "" ∨ some r = some x)) = [r] := by
      simp
    rw [h1, h2]
  unfold GInv
  refine ⟨?_, ?_, ?_, ?_⟩
  · rw [hlast]
    exact f1
  · rw [List.dropLast_concat]
    exact f3
  · rw [hpend2]
    exact f2
  · intro x
    simp only []
    by_cases hx : x = r
    · subst hx
      rw [if_pos rfl, if_pos hrpend]
      rw [f4, flattenBlocks_concat, List.filter_append]
      have h1 : (flattenBlocks done).filter (fun ev => ev.job = x) = [] :=
        flattenBlocks_filter_not_mem done hwfdone x hrnew
      have h2 : (e :: rest).filter (fun ev => ev.job = x) = e :: rest :=
        List.filter_eq_self.2 (fun ev hev => by simp [hom ev hev])
      rw [h1, h2, List.nil_append]
      rfl
    · rw [if_neg hx, f5 x hx]
      have hmemiff : x ∈ st1.pending ↔
          x ∈ (done.map Prod.fst).filter (fun x => decide (x.name = "")) := by
        rw [f2, List.mem_append]
        constructor
        · rintro (hm | hm)
          · exact hm
          · rw [List.mem_singleton] at hm
            exact absurd hm hx
        · exact Or.inl
      have hfil : (flattenBlocks (done ++ [(r, e :: rest)])).filter
          (fun ev => ev.job = x) =
          (flattenBlocks done).filter (fun ev => ev.job = x) := by
        rw [flattenBlocks_concat, List.filter_append]
        have : (e :: rest).filter (fun ev => ev.job = x) = [] := by
          rw [List.filter_eq_nil_iff]
          intro ev hev
          simp only [decide_eq_true_eq]
          rw [hom ev hev]
          exact fun hc => hx hc.symm
        rw [this, List.append_nil]
      rw [hfil]
      exact if_congr hmemiff.symm rfl rfl

/-- Folding one whole block through the accept/group core preserves the
grouped-mode invariant. -/
theorem gInv_block (opts : Options) (hgr : opts.isGrouped = true)
    (done : List (Ref × List Event)) (st : AGState) (r : Ref)
    (es : List Event) (hwf : BlocksWF (done ++ [(r, es)]))
    (hst : GInv done st) :
    GInv (done ++ [(r, es)]) (es.foldl (agCore opts) st) := by
  obtain ⟨hne_es, hom⟩ := hwf.2 (r, es) (by simp)
  have hrnew : r ∉ done.map Prod.fst := by
    have h := hwf.1
    rw [map_fst_concat, List.nodup_append] at h
    intro hc
    exact h.2.2 hc (by simp)
  obtain ⟨hprev, hserved, hpend, hgroups⟩ := hst
  cases es with
  | nil => exact absurd rfl hne_es
  | cons e rest =>
    have hej : e.job = r := hom e (by simp)
    rw [List.foldl_cons]
    rcases List.eq_nil_or_concat done with rfl | ⟨ds, b, hdone⟩
    · simp only [List.map_nil, List.getLast?_nil, Option.getD_none] at hprev
      have hpend0 : st.pending = [] := by simpa using hpend
      have hserved0 : st.served = [] := by simpa using hserved
      have hcore : agCore opts st e =
          { groups := fun x =>
              if x = e.job then st.groups e.job ++ [e] else st.groups x
            pending := insertPending st.pending e.job
            prev := e.job
            served := st.served } := by
        unfold agCore
        rw [if_neg (fun hc => hc.2.1 (by rw [hprev]))]
      rw [hcore]
      refine gInv_assemble opts [] r e rest _ hwf ?_ ?_ ?_ ?_ ?_
      · exact hej
      · simp [hpend0, insertPending, hej]
      · simp [hserved0]
      · simp only []
        rw [if_pos hej.symm, hej, hgroups r, if_neg (by rw [hpend0]; simp)]
        rfl
      · intro x hx
        simp only []
        rw [if_neg (by rw [hej]; exact hx), hgroups x, hpend0]
        simp
    · rw [List.concat_eq_append] at hdone
      subst hdone
      have hwfdone : BlocksWF (ds ++ [b]) := blocksWF_append_left _ _ hwf
      have hmapds : (ds ++ [b]).map Prod.fst = ds.map Prod.fst ++ [b.1] := by
        rw [List.map_append]
        rfl
      have hlastd : ((ds ++ [b]).map Prod.fst).getLast? = some b.1 := by
        rw [hmapds]
        exact List.getLast?_concat _
      rw [hlastd] at hprev
      simp only [Option.getD_some] at hprev
      have hrnew' : r ∉ ds.map Prod.fst ∧ r ≠ b.1 := by
        rw [hmapds, List.mem_append] at hrnew
        push_neg at hrnew
        exact ⟨hrnew.1, by simpa using hrnew.2⟩
      have hrefs_nodup : ((ds ++ [b]).map Prod.fst).Nodup := by
        have h := hwf.1
        rw [map_fst_concat, List.nodup_append] at h
        exact h.1
      have hb1_not_ds : b.1 ∉ ds.map Prod.fst := by
        have h := hrefs_nodup
        rw [hmapds, List.nodup_append] at h
        exact fun hc => h.2.2 hc (by simp)
      have hpendC : st.pending =
          (ds.map Prod.fst).filter (fun x => decide (x.name = "")) ++ [b.1] := by
        rw [hpend]
        simp only [hlastd]
        rw [hmapds, List.filter_append]
        have h1 : (ds.map Prod.fst).filter
            (fun x => decide (x.name = "" ∨ some b.1 = some x)) =
            (ds.map Prod.fst).filter (fun x => decide (x.name = "")) := by
          apply List.filter_congr
          intro x hx
          rw [decide_eq_decide]
          constructor
          · rintro (hn | hsome)
            · exact hn
            · rw [Option.some_inj] at hsome
              exact absurd (by rw [hsome]; exact hx) hb1_not_ds
          · exact Or.inl
        have h2 : ([b.1] : List Ref).filter
            (fun x => decide (x.name = "" ∨ some b.1 = some x)) = [b.1] := by
          simp
        rw [h1, h2]
      have hrpend0 : r ∉ st.pending := by
        rw [hpendC, List.mem_append]
        rintro (hm | hm)
        · exact hrnew'.1 (List.mem_of_mem_filter hm)
        · rw [List.mem_singleton] at hm
          exact hrnew'.2 hm
      have hinsert : insertPending st.pending e.job = st.pending ++ [e.job] := by
        unfold insertPending
        rw [if_neg (by rw [hej]; exact hrpend0)]
      rw [List.dropLast_concat] at hserved
      have hb1pend : b.1 ∈ st.pending := by
        rw [hpendC]
        exact List.mem_append_right _ (by simp)
      have hgb1 : st.groups b.1 = b.2 := by
        rw [hgroups b.1, if_pos hb1pend]
        exact flattenBlocks_filter _ hwfdone b (by simp)
      by_cases hbn : b.1.name = ""
      · have hcore : agCore opts st e =
            { groups := fun x =>
                if x = e.job then st.groups e.job ++ [e] else st.groups x
              pending := insertPending st.pending e.job
              prev := e.job
              served := st.served } := by
          unfold agCore
          rw [if_neg (fun hc => hc.2.1 (by rw [hprev]; exact hbn))]
        rw [hcore]
        have hrefsF : ((ds ++ [b]).map Prod.fst).filter
            (fun x => decide (x.name = "")) =
            (ds.map Prod.fst).filter (fun x => decide (x.name = "")) ++ [b.1] := by
          rw [hmapds, List.filter_append]
          simp [hbn]
        refine gInv_assemble opts (ds ++ [b]) r e rest _ hwf ?_ ?_ ?_ ?_ ?_
        · exact hej
        · simp only []
          rw [hinsert, hpendC, hej, hrefsF]
        · simp only []
          rw [hserved, List.filter_append]
          have : ([b] : List (Ref × List Event)).filter
              (fun x => decide (x.1.name ≠ "")) = [] := by
            simp [hbn]
          rw [this, List.append_nil]
        · simp only []
          rw [if_pos hej.symm, hej, hgroups r, if_neg hrpend0]
          rfl
        · intro x hx
          simp only []
          rw [if_neg (by rw [hej]; exact hx), hgroups x, hrefsF, ← hpendC]
      · have hprevne : st.prev ≠ e.job := by
          rw [hprev, hej]
          exact fun hc => hrnew'.2 hc.symm
        have hcore : agCore opts st e =
            { groups := fun x =>
                if x = st.prev then []
                else if x = e.job then st.groups e.job ++ [e] else st.groups x
              pending := (insertPending st.pending e.job).erase st.prev
              prev := e.job
              served := st.served ++
                [(st.prev,
                  if st.prev = e.job then st.groups e.job ++ [e]
                  else st.groups st.prev)] } := by
          unfold agCore
          rw [if_pos ⟨hgr, by rw [hprev]; exact hbn, hprevne⟩]
        rw [hcore]
        have hrefsF : ((ds ++ [b]).map Prod.fst).filter
            (fun x => decide (x.name = "")) =
            (ds.map Prod.fst).filter (fun x => decide (x.name = "")) := by
          rw [hmapds, List.filter_append]
          simp [hbn]
        have hb1_not_dsF : b.1 ∉
            (ds.map Prod.fst).filter (fun x => decide (x.name = "")) :=
          fun hc => hb1_not_ds (List.mem_of_mem_filter hc)
        refine gInv_assemble opts (ds ++ [b]) r e rest _ hwf ?_ ?_ ?_ ?_ ?_
        · exact hej
        · simp only []
          rw [hinsert, hpendC, hej, hprev, hrefsF]
          rw [List.append_assoc, List.erase_append_right _ hb1_not_dsF]
          congr 1
          rw [List.singleton_append, List.erase_cons_head]
        · simp only []
          have hb1ne : ¬(b.1 = e.job) := fun hc => hprevne (by rw [hprev]; exact hc)
          rw [hserved, hprev, if_neg hb1ne, hgb1, List.filter_append]
          have : ([b] : List (Ref × List Event)).filter
              (fun x => decide (x.1.name ≠ "")) = [b] := by
            simp [hbn]
          rw [this]
        · simp only []
          rw [if_neg (by rw [hprev]; exact fun hc => hrnew'.2 hc)]
          rw [if_pos hej.symm, hej, hgroups r, if_neg hrpend0]
          rfl
        · intro x hx
          simp only []
          by_cases hxb : x = b.1
          · subst hxb
            rw [if_pos hprev.symm, hrefsF, if_neg hb1_not_dsF]
          · rw [if_neg (by rw [hprev]; exact hxb)]
            rw [if_neg (by rw [hej]; exact hx), hgroups x, hrefsF]
            have hmemiff : x ∈ st.pending ↔
                x ∈ (ds.map Prod.fst).filter (fun x => decide (x.name = "")) := by
              rw [hpendC, List.mem_append]
              constructor
              · rintro (hm | hm)
                · exact hm
                · rw [List.mem_singleton] at hm
                  exact absurd hm hxb
              · exact Or.inl
            exact if_congr hmemiff rfl rfl

theorem gInv_init : GInv [] AGState.init := by
  refine ⟨rfl, rfl, rfl, ?_⟩
  intro r
  simp [AGState.init]

theorem gInv_fold (opts : Options) (hgr : opts.isGrouped = true)
    (bs : List (Ref × List Event)) (hwf : BlocksWF bs) :
    GInv bs ((flattenBlocks bs).foldl (agCore opts) AGState.init) := by
  induction bs using List.reverseRecOn with
  | nil => exact gInv_init
  | append_singleton ds b ih =>
    rw [flattenBlocks_concat, List.foldl_append]
    exact gInv_block opts hgr ds _ b.1 b.2 hwf
      (ih (blocksWF_append_left _ _ hwf))

theorem pairsSpec_grouped (opts : Options) (input : List Event)
    (hgr : opts.isGrouped = true)
    (hch : IsChunked (acceptedEvents opts input)) :
    PairsSpec (acceptAndGroup opts input) (acceptedEvents opts input) := by
  obtain ⟨bs, hwf, hacc⟩ := hch
  unfold acceptAndGroup
  rw [foldl_agStep_core, hacc]
  obtain ⟨hprev, hserved, hpend, hgroups⟩ := gInv_fold opts hgr bs hwf
  have hcomp : (Prod.fst ∘ fun j =>
      (j, ((flattenBlocks bs).foldl (agCore opts) AGState.init).groups j)) =
      id := by
    funext j
    rfl
  have hpendsub : ((flattenBlocks bs).foldl (agCore opts)
      AGState.init).pending ⊆ bs.map Prod.fst := by
    rw [hpend]
    exact fun x hx => List.mem_of_mem_filter hx
  refine ⟨?_, ?_, ?_⟩
  · rw [List.map_append, List.map_map, hcomp, List.map_id, hserved]
    apply List.Nodup.append
    · have hsub : ((bs.dropLast.filter
          (fun b => decide (b.1.name ≠ ""))).map Prod.fst).Sublist
          (bs.map Prod.fst) :=
        List.Sublist.map Prod.fst
          ((List.filter_sublist _).trans (List.dropLast_sublist _))
      exact List.Nodup.sublist hsub hwf.1
    · rw [hpend]
      exact List.Nodup.sublist
        (List.Sublist.trans (List.filter_sublist _) (List.Sublist.refl _))
        hwf.1
    · intro x hx1 hx2
      rw [List.mem_map] at hx1
      obtain ⟨c, hc, hcx⟩ := hx1
      rw [List.mem_filter] at hc
      have hcname : c.1.name ≠ "" := by
        have := hc.2
        simpa using this
      rw [hpend, List.mem_filter] at hx2
      have hx2' := hx2.2
      rw [decide_eq_true_eq] at hx2'
      rcases hx2' with hn | hlastx
      · rw [← hcx] at hn
        exact hcname hn
      · rcases List.eq_nil_or_concat bs with hbs | ⟨cs, cb, hbs⟩
        · rw [hbs] at hc
          exact absurd hc.1 (by simp)
        · rw [List.concat_eq_append] at hbs
          subst hbs
          have hlast2 : ((cs ++ [cb]).map Prod.fst).getLast? = some cb.1 := by
            rw [List.map_append]
            exact List.getLast?_concat _
          rw [hlast2, Option.some_inj] at hlastx
          rw [List.dropLast_concat] at hc
          have hnd := hwf.1
          rw [List.map_append, List.nodup_append] at hnd
          have hcbmem : cb.1 ∈ List.map Prod.fst cs := by
            rw [hlastx, ← hcx]
            exact List.mem_map_of_mem _ hc.1
          exact hnd.2.2 hcbmem (by simp)
  · intro pr hpr
    rcases List.mem_append.1 hpr with hpr | hpr
    · rw [hserved, List.mem_filter] at hpr
      have hprbs : pr ∈ bs := (List.dropLast_sublist bs).mem hpr.1
      exact (flattenBlocks_filter bs hwf pr hprbs).symm
    · rw [List.mem_map] at hpr
      obtain ⟨j, hj, hje⟩ := hpr
      rw [← hje]
      simp only []
      rw [hgroups j, if_pos hj]
  · intro r0
    rw [List.map_append, List.map_map, hcomp, List.map_id]
    constructor
    · intro hr0
      have hr0refs : r0 ∈ bs.map Prod.fst := by
        rcases List.mem_append.1 hr0 with hm | hm
        · rw [hserved] at hm
          rw [List.mem_map] at hm
          obtain ⟨c, hc, hcx⟩ := hm
          rw [List.mem_filter] at hc
          rw [← hcx]
          exact List.mem_map_of_mem _ ((List.dropLast_sublist bs).mem hc.1)
        · exact hpendsub hm
      rw [List.mem_map] at hr0refs
      obtain ⟨c, hc, hcx⟩ := hr0refs
      obtain ⟨hcne, hchom⟩ := hwf.2 c hc
      cases hc2 : c.2 with
      | nil => exact absurd hc2 hcne
      | cons ev evs =>
        have hev : ev ∈ c.2 := by rw [hc2]; simp
        rw [List.mem_map]
        exact ⟨ev, (mem_flattenBlocks bs ev).2 ⟨c, hc, hev⟩,
          by rw [hchom ev hev, hcx]⟩
    · intro hr0
      rw [List.mem_map] at hr0
      obtain ⟨ev, hev, hevj⟩ := hr0
      rw [mem_flattenBlocks] at hev
      obtain ⟨c, hc, hevc⟩ := hev
      have hr0c : r0 = c.1 := by
        rw [← hevj, (hwf.2 c hc).2 ev hevc]
      rcases List.eq_nil_or_concat bs with hbs | ⟨cs, cb, hbs⟩
      · rw [hbs] at hc
        exact absurd hc (by simp)
      · rw [List.concat_eq_append] at hbs
        subst hbs
        have hlast2 : ((cs ++ [cb]).map Prod.fst).getLast? = some cb.1 := by
          rw [List.map_append]
          exact List.getLast?_concat _
        have hr0refs : r0 ∈ (cs ++ [cb]).map Prod.fst := by
          rw [hr0c]
          exact List.mem_map_of_mem _ hc
        by_cases hcase : r0.name = "" ∨ r0 = cb.1
        · refine List.mem_append_right _ ?_
          rw [hpend, List.mem_filter]
          refine ⟨hr0refs, ?_⟩
          rw [decide_eq_true_eq, hlast2]
          rcases hcase with hn | hn
          · exact Or.inl hn
          · exact Or.inr (by rw [hn])
        · push_neg at hcase
          refine List.mem_append_left _ ?_
          rw [hserved]
          rcases List.mem_append.1 hc with hccs | hccb
          · rw [List.dropLast_concat, List.mem_map]
            refine ⟨c, ?_, hr0c.symm⟩
            rw [List.mem_filter]
            refine ⟨hccs, ?_⟩
            rw [decide_eq_true_eq, ← hr0c]
            exact hcase.1
          · rw [List.mem_singleton] at hccb
            exact absurd (by rw [hr0c, hccb]) hcase.2

/-- Under the grouped-mode input precondition, the emit stage receives each
reference of the accepted input exactly once, with its full group. -/
theorem acceptAndGroup_spec (opts : Options) (input : List Event)
    (h : GroupedOK opts input) :
    PairsSpec (acceptAndGroup opts input) (acceptedEvents opts input) := by
  cases hgr : opts.isGrouped with
  | false => exact pairsSpec_ungrouped opts input hgr
  | true => exact pairsSpec_grouped opts input hgr (h hgr)

theorem pairs_key_unique (l : List (Ref × List Event))
    (hnd : (l.map Prod.fst).Nodup) : ∀ p ∈ l, ∀ q ∈ l, p.1 = q.1 → p = q := by
  induction l with
  | nil => intro p hp; exact absurd hp (List.not_mem_nil p)
  | cons a rest ih =>
    rw [List.map_cons, List.nodup_cons] at hnd
    intro p hp q hq heq
    rcases List.mem_cons.1 hp with hpa | hp
    · rcases List.mem_cons.1 hq with hqa | hq
      · rw [hpa, hqa]
      · exfalso
        apply hnd.1
        rw [← hpa, heq]
        exact List.mem_map_of_mem _ hq
    · rcases List.mem_cons.1 hq with hqa | hq
      · exfalso
        apply hnd.1
        rw [← hqa, ← heq]
        exact List.mem_map_of_mem _ hp
      · exact ih hnd.2 p hp q hq heq

theorem nodup_mid_keys (l1 l2 : List (Ref × List Event))
    (pr : Ref × List Event)
    (hnd : ((l1 ++ pr :: l2).map Prod.fst).Nodup) :
    (∀ q ∈ l1, q.1 ≠ pr.1) ∧ (∀ q ∈ l2, q.1 ≠ pr.1) := by
  rw [List.map_append, List.map_cons, List.nodup_append] at hnd
  obtain ⟨h1, h2, hdisj⟩ := hnd
  rw [List.nodup_cons] at h2
  constructor
  · intro q hq hc
    exact hdisj (List.mem_map_of_mem _ hq) (by simp [hc])
  · intro q hq hc
    exact h2.1 (by rw [← hc]; exact List.mem_map_of_mem _ hq)

theorem errors_filter_of_no_key (opts : Options)
    (ps : List (Ref × List Event)) (R : Ref)
    (h : ∀ pr ∈ ps, pr.1 ≠ R) :
    (ps.filterMap (emitErrOf opts)).filter (fun e => e.ref = R) = [] := by
  rw [List.filter_eq_nil_iff]
  intro e he
  rw [List.mem_filterMap] at he
  obtain ⟨pr, hpr, heq⟩ := he
  have hr := (emitJob_fail_inv opts pr.1 pr.2 e (emitErrOf_fail opts pr e heq)).1
  simp only [decide_eq_true_eq]
  rw [hr]
  exact h pr hpr

theorem mem_prepareEvents (opts : Options) (g : List Event) (e : Event) :
    e ∈ prepareEvents opts g ↔ e ∈ g := by
  unfold prepareEvents
  split
  · exact Iff.rfl
  · unfold sortByVersion
    exact List.mem_insertionSort _

theorem softDeleted_prepare (opts : Options) (g : List Event) :
    SoftDeleted (prepareEvents opts g) = SoftDeleted g := by
  unfold SoftDeleted
  rw [List.any_eq, List.any_eq, decide_eq_decide]
  constructor
  · rintro ⟨x, hx, hp⟩
    exact ⟨x, (mem_prepareEvents opts g x).1 hx, hp⟩
  · rintro ⟨x, hx, hp⟩
    exact ⟨x, (mem_prepareEvents opts g x).2 hx, hp⟩

theorem shouldDiscard_false_iff (opts : Options) (e : Event) :
    shouldDiscard opts e = false ↔ ∀ f ∈ opts.filters, f e = true := by
  unfold shouldDiscard
  rw [List.any_eq_false]
  constructor
  · intro h f hf
    have := h f hf
    simpa using this
  · intro h f hf
    simp [h f hf]

theorem mem_acceptedEvents (opts : Options) (input : List Event) (e : Event) :
    e ∈ acceptedEvents opts input ↔
      e ∈ input ∧ shouldDiscard opts e = false := by
  unfold acceptedEvents
  rw [List.mem_filter]
  simp

theorem emitJob_emit_histOf (opts : Options) (pr : Ref × List Event)
    (h : History) (he : emitJob opts pr.1 pr.2 = .emit h) :
    emitHistOf opts pr = some h := by
  unfold emitHistOf
  rw [he]

/-- With the given reference absent from the pairs, no history carries it. -/
theorem histories_of_no_key (opts : Options) (ps : List (Ref × List Event))
    (R : Ref) (h : ∀ pr ∈ ps, pr.1 ≠ R) :
    ∀ h' ∈ ps.filterMap (emitHistOf opts), h'.ref ≠ R := by
  intro h' hh'
  rw [List.mem_filterMap] at hh'
  obtain ⟨pr, hpr, heq⟩ := hh'
  have hr := (emitJob_emit_inv opts pr.1 pr.2 h'
    (emitHistOf_emit opts pr h' heq)).1
  rw [hr]
  exact h pr hpr

theorem filterMap_hist_count (opts : Options)
    (ps : List (Ref × List Event)) (R : Ref)
    (hnd : (ps.map Prod.fst).Nodup) :
    ((ps.filterMap (emitHistOf opts)).filter (fun h => h.ref = R)).length ≤ 1 := by
  induction ps with
  | nil => simp
  | cons pr rest ih =>
    rw [List.map_cons, List.nodup_cons] at hnd
    rw [List.filterMap_cons]
    cases hh : emitHistOf opts pr with
    | none => exact ih hnd.2
    | some h =>
      rw [List.filter_cons]
      by_cases hr : h.ref = R
      · rw [if_pos (by simp [hr])]

        have hzero : ((rest.filterMap (emitHistOf opts)).filter
            (fun h' => h'.ref = R)).length = 0 := by
          rw [List.length_eq_zero, List.filter_eq_nil_iff]
          intro h' hh'
          rw [List.mem_filterMap] at hh'
          obtain ⟨pr', hpr', he'⟩ := hh'
          have h1 := (emitJob_emit_inv opts pr'.1 pr'.2 h'
            (emitHistOf_emit opts pr' h' he')).1
          simp only [decide_eq_true_eq]
          intro hc
          have h0 := (emitJob_emit_inv opts pr.1 pr.2 h
            (emitHistOf_emit opts pr h hh)).1
          apply hnd.1
          have hfst : pr.1 = pr'.1 := by
            rw [← h0, hr, ← hc, h1]
          rw [hfst]
          exact List.mem_map_of_mem _ hpr'
        rw [List.length_cons, hzero]
      · rw [if_neg (by simp [hr])]
        exact ih hnd.2

/-! ## Claim theorems -/

/-- C1: with consistency validation enabled, the event versions inside
every history emitted by the rebuild pipeline form a contiguous ascending
sequence starting at `v0 + 1`, where `v0 = 0` is the current version of the
fresh aggregate (`Aggregate.new`) the pipeline validates the history
against and to which the history is applied; moreover the emit stage sorts
a group's events by ascending aggregate version whenever the `Sorted`
option is off. -/
theorem pipeline_history_versions_contiguous (opts : Options)
    (input : List Event) :
    (∀ h ∈ (runPipeline opts input).1, opts.validateConsistency = true →
      h.events.map (·.aggVersion) =
        List.range' ((Aggregate.new h.ref.name h.ref.id).version + 1)
          h.events.length) ∧
    (∀ (j : Ref) (g : List Event) (h : History), opts.isSorted = false →
      emitJob opts j g = .emit h → h.events = sortByVersion g) := by
  constructor
  · intro h hmem hvc
    rw [mem_histories_iff] at hmem
    obtain ⟨pr, hpr, he⟩ := hmem
    obtain ⟨href, hev, hval, _⟩ :=
      emitJob_emit_inv opts pr.1 pr.2 h (emitHistOf_emit opts pr h he)
    have hvers := validate_none_versions _ _ (hval hvc)
    rw [← hev] at hvers
    rw [href]
    exact hvers
  · intro j g h hs he
    obtain ⟨_, hev, _, _⟩ := emitJob_emit_inv opts j g h he
    rw [hev]
    unfold prepareEvents
    rw [hs]
    simp

/-- C1 witness: a two-event aggregate, delivered out of order, is emitted
with versions `[1, 2]` and sorted by the emit stage. -/
theorem pipeline_history_versions_contiguous_witness :
    (History.mk refA [evA1, evA2]).events.map (·.aggVersion) =
      List.range' ((Aggregate.new refA.name refA.id).version + 1)
        (History.mk refA [evA1, evA2]).events.length ∧
    (History.mk refA [evA1, evA2]).events = sortByVersion [evA2, evA1] :=
  ⟨(pipeline_history_versions_contiguous Options.default [evA2, evA1]).1
      ⟨refA, [evA1, evA2]⟩ (by decide) rfl,
    (pipeline_history_versions_contiguous Options.default [evA2, evA1]).2
      refA [evA2, evA1] ⟨refA, [evA1, evA2]⟩ rfl (by decide)⟩

/-- C2: with validation enabled (and the internal sort on), if the input
holds a version gap for reference `R` — the validator rejects `R`'s sorted
events — and `R`'s events pass the filters, then under the grouped-mode
input precondition the pipeline emits no history for `R`, surfaces exactly
the one validator error for `R` (of start-version or version-gap kind), and
still emits the history of every other aggregate whose group the emit stage
accepts. -/
theorem version_gap_isolates_aggregate (opts : Options) (input : List Event)
    (R : Ref) (err : ConsistencyError)
    (hvc : opts.validateConsistency = true)
    (hso : opts.isSorted = false)
    (hg : GroupedOK opts input)
    (hfil : ∀ e ∈ input, e.job = R → shouldDiscard opts e = false)
    (hgap : ValidateConsistency (Aggregate.new R.name R.id)
      (sortByVersion (input.filter (fun e => e.job = R))) = some err) :
    (∀ h ∈ (runPipeline opts input).1, h.ref ≠ R) ∧
    (runPipeline opts input).2.filter (fun e => e.ref = R) = [err] ∧
    ((∃ x g, err.kind = .unexpectedStartVersion x g) ∨
      ∃ i x g, err.kind = .versionGap i x g) ∧
    (∀ R', R' ≠ R → R' ∈ (acceptedEvents opts input).map Event.job →
      ∀ h', emitJob opts R'
          ((acceptedEvents opts input).filter (fun e => e.job = R')) =
          .emit h' →
        h' ∈ (runPipeline opts input).1) := by
  obtain ⟨hnd, hcont, hcov⟩ := acceptAndGroup_spec opts input hg
  have haccR : (acceptedEvents opts input).filter (fun e => e.job = R) =
      input.filter (fun e => e.job = R) := by
    unfold acceptedEvents
    rw [List.filter_comm]
    apply List.filter_eq_self.2
    intro e he
    rw [List.mem_filter] at he
    rw [hfil e he.1 (by simpa using he.2)]
    rfl
  have hnonempty : input.filter (fun e => e.job = R) ≠ [] := by
    intro hc
    rw [hc] at hgap
    have hnil : ValidateConsistency (Aggregate.new R.name R.id)
        (sortByVersion []) = none := rfl
    rw [hnil] at hgap
    exact absurd hgap (by simp)
  have hRmem : R ∈ (acceptedEvents opts input).map Event.job := by
    obtain ⟨e, he⟩ := List.exists_mem_of_ne_nil _ hnonempty
    rw [List.mem_filter] at he
    have hjob : e.job = R := by simpa using he.2
    rw [List.mem_map]
    refine ⟨e, ?_, hjob⟩
    rw [mem_acceptedEvents]
    exact ⟨he.1, hfil e he.1 hjob⟩
  obtain ⟨pr, hpr, hprfst⟩ := List.mem_map.1 ((hcov R).2 hRmem)
  have hgrp : pr.2 = input.filter (fun e => e.job = R) := by
    rw [hcont pr hpr, hprfst, haccR]
  have hfail : emitJob opts pr.1 pr.2 = .fail err := by
    unfold emitJob
    have hprep : prepareEvents opts pr.2 =
        sortByVersion (input.filter (fun e => e.job = R)) := by
      unfold prepareEvents
      rw [hso, hgrp]
      simp
    rw [hprep, hprfst, hvc]
    simp only [if_true, hgap]
  obtain ⟨l1, l2, hdec⟩ := List.append_of_mem hpr
  have hmid := nodup_mid_keys l1 l2 pr (by rw [← hdec]; exact hnd)
  refine ⟨?_, ?_, ?_, ?_⟩
  · intro h hh
    rw [mem_histories_iff] at hh
    obtain ⟨pr', hpr', he'⟩ := hh
    have hr' := (emitJob_emit_inv opts pr'.1 pr'.2 h
      (emitHistOf_emit opts pr' h he')).1
    rw [hr']
    intro hc
    have : pr' = pr :=
      pairs_key_unique _ hnd pr' hpr' pr hpr (by rw [hc, hprfst])
    rw [this] at he'
    unfold emitHistOf at he'
    rw [hfail] at he'
    exact absurd he' (by simp)
  · unfold runPipeline
    rw [emitAll_eq]
    simp only []
    rw [hdec, List.filterMap_append, List.filterMap_cons, List.filter_append]
    have hl1 : (l1.filterMap (emitErrOf opts)).filter
        (fun e => e.ref = R) = [] :=
      errors_filter_of_no_key opts l1 R
        (fun q hq hc => hmid.1 q hq (by rw [hc, hprfst]))
    have hl2 : (l2.filterMap (emitErrOf opts)).filter
        (fun e => e.ref = R) = [] :=
      errors_filter_of_no_key opts l2 R
        (fun q hq hc => hmid.2 q hq (by rw [hc, hprfst]))
    have hmide : emitErrOf opts pr = some err := by
      unfold emitErrOf
      rw [hfail]
    rw [hl1, hmide, List.nil_append, List.filter_cons]
    have herrR : err.ref = R := by
      rw [(emitJob_fail_inv opts pr.1 pr.2 err hfail).1, hprfst]
    rw [if_pos (by simp [herrR]), hl2]
  · have hhom : ∀ e ∈ sortByVersion (input.filter (fun e => e.job = R)),
        e.job = Ref.mk (Aggregate.new R.name R.id).name
          (Aggregate.new R.name R.id).id := by
      intro e he
      unfold sortByVersion at he
      rw [List.mem_insertionSort] at he
      rw [List.mem_filter] at he
      have hjob : e.job = R := by simpa using he.2
      exact hjob
    exact (validate_homogeneous_kind _ _ hhom err hgap).2
  · intro R' hne hmem h' hemit
    obtain ⟨pr', hpr', hfst'⟩ := List.mem_map.1 ((hcov R').2 hmem)
    have hgrp' : pr'.2 =
        (acceptedEvents opts input).filter (fun e => e.job = R') := by
      rw [hcont pr' hpr', hfst']
    rw [mem_histories_iff]
    refine ⟨pr', hpr', ?_⟩
    apply emitJob_emit_histOf
    rw [hfst', hgrp']
    exact hemit

/-- C2 witness: versions 1 and 3 for `refA` plus a clean `refB`; exactly
one version-gap error identifying `refA` is surfaced. -/
theorem version_gap_isolates_aggregate_witness :
    (runPipeline Options.default [evA1, evA3, evB1]).2.filter
      (fun e => e.ref = refA) = [⟨refA, .versionGap 1 2 3⟩] :=
  (version_gap_isolates_aggregate Options.default [evA1, evA3, evB1] refA
    ⟨refA, .versionGap 1 2 3⟩ rfl rfl
    (fun hc => absurd hc (by decide))
    (by decide) (by decide)).2.1

/-- C3: under the pipeline's input preconditions (grouped option implies
chunked input), at most one history per aggregate reference is emitted. -/
theorem at_most_one_history_per_reference (opts : Options)
    (input : List Event) (hg : GroupedOK opts input) (R : Ref) :
    ((runPipeline opts input).1.filter (fun h => h.ref = R)).length ≤ 1 := by
  unfold runPipeline
  rw [emitAll_eq]
  simp only []
  exact filterMap_hist_count opts _ R (acceptAndGroup_spec opts input hg).1

/-- C3 witness: a grouped-mode run over chunked input emits at most one
history for `refA`. -/
theorem at_most_one_history_per_reference_witness :
    ((runPipeline (Options.mk false true true false [])
      [evA1, evA2, evB1]).1.filter (fun h => h.ref = refA)).length ≤ 1 :=
  at_most_one_history_per_reference (Options.mk false true true false [])
    [evA1, evA2, evB1]
    (fun _ => ⟨[(refA, [evA1, evA2]), (refB, [evB1])],
      by unfold BlocksWF; decide, by decide⟩)
    refA

/-- C4 counterexample: with the defaults (`with_soft_deleted` off,
validation on), the group `[evA1, evA3soft]` carries the soft-delete
marker, yet the pipeline surfaces a version-gap error identifying `refA` —
validation runs before the soft-delete check, so the claim that no error
is reported for such an aggregate is false. -/
theorem soft_delete_error_surfaced_cex :
    Options.default.withSoftDeleted = false ∧
    SoftDeleted ((acceptedEvents Options.default [evA1, evA3soft]).filter
      (fun e => e.job = refA)) = true ∧
    (runPipeline Options.default [evA1, evA3soft]).2 =
      [⟨refA, .versionGap 1 2 3⟩] :=
  ⟨rfl, by decide, by decide⟩

/-- C4 (amended): with the soft-delete option off, an aggregate whose
group carries the soft-delete marker gets no history; provided its group
also passes consistency validation (or validation is disabled), no error
is surfaced for it either — the emit stage validates before the
soft-delete check, so validation errors are surfaced even for soft-deleted
groups — and other aggregates are emitted normally. -/
theorem soft_deleted_group_suppressed (opts : Options) (input : List Event)
    (R : Ref)
    (hws : opts.withSoftDeleted = false)
    (hg : GroupedOK opts input)
    (hsd : SoftDeleted ((acceptedEvents opts input).filter
      (fun e => e.job = R)) = true)
    (hok : opts.validateConsistency = true →
      ValidateConsistency (Aggregate.new R.name R.id)
        (prepareEvents opts ((acceptedEvents opts input).filter
          (fun e => e.job = R))) = none) :
    (∀ h ∈ (runPipeline opts input).1, h.ref ≠ R) ∧
    (∀ e ∈ (runPipeline opts input).2, e.ref ≠ R) ∧
    (∀ R', R' ≠ R → R' ∈ (acceptedEvents opts input).map Event.job →
      ∀ h', emitJob opts R' ((acceptedEvents opts input).filter
          (fun e => e.job = R')) = .emit h' →
        h' ∈ (runPipeline opts input).1) := by
  obtain ⟨hnd, hcont, hcov⟩ := acceptAndGroup_spec opts input hg
  have hRmem : R ∈ (acceptedEvents opts input).map Event.job := by
    unfold SoftDeleted at hsd
    rw [List.any_eq_true] at hsd
    obtain ⟨x, hx, _⟩ := hsd
    rw [List.mem_filter] at hx
    rw [List.mem_map]
    exact ⟨x, hx.1, by simpa using hx.2⟩
  obtain ⟨pr, hpr, hprfst⟩ := List.mem_map.1 ((hcov R).2 hRmem)
  have hgrp : pr.2 =
      (acceptedEvents opts input).filter (fun e => e.job = R) := by
    rw [hcont pr hpr, hprfst]
  have hskip : emitJob opts pr.1 pr.2 = .skip := by
    unfold emitJob
    have hnone : (if opts.validateConsistency then
        ValidateConsistency (Aggregate.new pr.1.name pr.1.id)
          (prepareEvents opts pr.2)
      else none) = none := by
      cases hvc : opts.validateConsistency with
      | false => simp
      | true =>
        rw [if_pos rfl, hprfst, hgrp]
        exact hok hvc
    rw [hnone]
    have hsd2 : SoftDeleted (prepareEvents opts pr.2) = true := by
      rw [softDeleted_prepare, hgrp]
      exact hsd
    rw [if_pos ⟨hws, hsd2⟩]
  refine ⟨?_, ?_, ?_⟩
  · intro h hh
    rw [mem_histories_iff] at hh
    obtain ⟨pr', hpr', he'⟩ := hh
    have hr' := (emitJob_emit_inv opts pr'.1 pr'.2 h
      (emitHistOf_emit opts pr' h he')).1
    rw [hr']
    intro hc
    have heq : pr' = pr :=
      pairs_key_unique _ hnd pr' hpr' pr hpr (by rw [hc, hprfst])
    rw [heq] at he'
    unfold emitHistOf at he'
    rw [hskip] at he'
    exact absurd he' (by simp)
  · intro e he
    rw [mem_errors_iff] at he
    obtain ⟨pr', hpr', he'⟩ := he
    have hr' := (emitJob_fail_inv opts pr'.1 pr'.2 e
      (emitErrOf_fail opts pr' e he')).1
    rw [hr']
    intro hc
    have heq : pr' = pr :=
      pairs_key_unique _ hnd pr' hpr' pr hpr (by rw [hc, hprfst])
    rw [heq] at he'
    unfold emitErrOf at he'
    rw [hskip] at he'
    exact absurd he' (by simp)
  · intro R' hne hmem h' hemit
    obtain ⟨pr', hpr', hfst'⟩ := List.mem_map.1 ((hcov R').2 hmem)
    have hgrp' : pr'.2 =
        (acceptedEvents opts input).filter (fun e => e.job = R') := by
      rw [hcont pr' hpr', hfst']
    rw [mem_histories_iff]
    refine ⟨pr', hpr', ?_⟩
    apply emitJob_emit_histOf
    rw [hfst', hgrp']
    exact hemit

/-- C4 witness: `refA`'s contiguous group `[evA1, evA2soft]` carries the
marker and validates; the pipeline keeps quiet about `refA` while the
history for `refB` is still emitted. -/
theorem soft_deleted_group_suppressed_witness :
    (History.mk refB [evB1]).ref ≠ refA ∧
    History.mk refB [evB1] ∈
      (runPipeline Options.default [evA1, evA2soft, evB1]).1 :=
  ⟨(soft_deleted_group_suppressed Options.default [evA1, evA2soft, evB1]
      refA rfl (fun hc => absurd hc (by decide)) (by decide)
      (fun _ => by decide)).1 ⟨refB, [evB1]⟩ (by decide),
    (soft_deleted_group_suppressed Options.default [evA1, evA2soft, evB1]
      refA rfl (fun hc => absurd hc (by decide)) (by decide)
      (fun _ => by decide)).2.2 refB (by decide) (by decide)
      ⟨refB, [evB1]⟩ (by decide)⟩

/-- C5 counterexample: with no filters configured (every filter vacuously
accepts every event), the single event `evA2` — version 2 with no
predecessor — appears in no emitted history because its aggregate fails
consistency validation, refuting the claimed "if and only if". -/
theorem filter_only_if_cex :
    Options.default.filters = [] ∧ evA2 ∈ [evA2] ∧
    (runPipeline Options.default [evA2]).1 = [] :=
  ⟨rfl, by simp, by decide⟩

/-- C5 (amended): an event appears in an emitted history only if every
filter accepts it; the converse — every accepted input event appears in
some emitted history — holds once the aggregate's group is actually
emitted, in particular whenever consistency validation is disabled and
soft-deleted groups are included (and the grouped-mode precondition
holds). -/
theorem filter_membership_characterization (opts : Options)
    (input : List Event) :
    (∀ h ∈ (runPipeline opts input).1, ∀ e ∈ h.events,
      e ∈ input ∧ ∀ f ∈ opts.filters, f e = true) ∧
    (opts.validateConsistency = false → opts.withSoftDeleted = true →
      GroupedOK opts input → ∀ e ∈ input,
      (∀ f ∈ opts.filters, f e = true) →
      ∃ h ∈ (runPipeline opts input).1, e ∈ h.events) := by
  constructor
  · intro h hh e he
    rw [mem_histories_iff] at hh
    obtain ⟨pr, hpr, hho⟩ := hh
    obtain ⟨_, hev, _, _⟩ :=
      emitJob_emit_inv opts pr.1 pr.2 h (emitHistOf_emit opts pr h hho)
    rw [hev, mem_prepareEvents] at he
    have hacc := ((acceptAndGroup_events opts input).1 pr hpr e he).1
    rw [mem_acceptedEvents] at hacc
    exact ⟨hacc.1, (shouldDiscard_false_iff opts e).1 hacc.2⟩
  · intro hvc hws hg e he hfil
    have hacc : e ∈ acceptedEvents opts input := by
      rw [mem_acceptedEvents]
      exact ⟨he, (shouldDiscard_false_iff opts e).2 hfil⟩
    obtain ⟨hnd, hcont, hcov⟩ := acceptAndGroup_spec opts input hg
    have hmem : e.job ∈ (acceptedEvents opts input).map Event.job :=
      List.mem_map_of_mem _ hacc
    obtain ⟨pr, hpr, hfst⟩ := List.mem_map.1 ((hcov e.job).2 hmem)
    have hein : e ∈ pr.2 := by
      rw [hcont pr hpr, List.mem_filter, hfst]
      exact ⟨hacc, by simp⟩
    have hemit : emitJob opts pr.1 pr.2 =
        .emit ⟨pr.1, prepareEvents opts pr.2⟩ := by
      unfold emitJob
      rw [hvc]
      simp [hws]
    refine ⟨⟨pr.1, prepareEvents opts pr.2⟩, ?_, ?_⟩
    · rw [mem_histories_iff]
      exact ⟨pr, hpr, emitJob_emit_histOf opts pr _ hemit⟩
    · simp only []
      rw [mem_prepareEvents]
      exact hein

/-- C5 witness: with validation off and soft-deleted groups included, the
lone event `evA2` passes the (empty) filter list and appears in the
emitted history. -/
theorem filter_membership_characterization_witness :
    (evA2 ∈ [evA2] ∧
      ∀ f ∈ (Options.mk false false false true []).filters,
        f evA2 = true) ∧
    ∃ h ∈ (runPipeline (Options.mk false false false true [])
      [evA2]).1, evA2 ∈ h.events :=
  ⟨(filter_membership_characterization
      (Options.mk false false false true []) [evA2]).1
      ⟨refA, [evA2]⟩ (by decide) evA2 (by decide),
    (filter_membership_characterization
      (Options.mk false false false true []) [evA2]).2
      rfl rfl (fun hc => absurd hc (by decide)) evA2 (by simp)
      (fun f hf => absurd hf (List.not_mem_nil f))⟩

/-! ## Lemmas about the cache heap -/

theorem Heap.read_append_self (h : Heap) (v : List Event) :
    Heap.read (h ++ [v]) h.length = v := by
  unfold Heap.read
  simp only [List.getD_eq_getElem?_getD, List.getElem?_concat_length]
  rfl

theorem Heap.read_append_lt (h : Heap) (v : List Event) (r : Nat)
    (hr : r < h.length) : Heap.read (h ++ [v]) r = h.read r := by
  unfold Heap.read
  simp only [List.getD_eq_getElem?_getD]
  rw [List.getElem?_append, if_pos hr]

theorem Heap.read_write_self (h : Heap) (r : Nat) (v : List Event)
    (hr : r < h.length) : (h.write r v).read r = v := by
  unfold Heap.write Heap.read
  simp only [List.getD_eq_getElem?_getD]
  rw [List.getElem?_set_self hr]
  rfl

theorem Heap.read_write_ne (h : Heap) (r r' : Nat) (v : List Event)
    (hne : r ≠ r') : (h.write r v).read r' = h.read r' := by
  unfold Heap.write Heap.read
  simp only [List.getD_eq_getElem?_getD]
  rw [List.getElem?_set_ne hne]

theorem lookupEntry_cons_self (es : List ((ApplyConfig × Query) × Nat))
    (k : ApplyConfig × Query) (r : Nat) :
    lookupEntry ((k, r) :: es) k = some r := by
  unfold lookupEntry
  rw [List.find?_cons_of_pos _ (by simp)]
  rfl

theorem lookupEntry_mem (es : List ((ApplyConfig × Query) × Nat))
    (k : ApplyConfig × Query) (r : Nat) (h : lookupEntry es k = some r) :
    (k, r) ∈ es := by
  unfold lookupEntry at h
  rw [Option.map_eq_some'] at h
  obtain ⟨pair, hfind, h2⟩ := h
  have hmem := List.mem_of_find?_eq_some hfind
  have hp := List.find?_some hfind
  rw [decide_eq_true_eq] at hp
  have : pair = (k, r) := by
    rw [← hp, ← h2]
  rw [← this]
  exact hmem

theorem CacheState.Wf.lookup_lt (st : CacheState) (hwf : st.Wf)
    (k : ApplyConfig × Query) (r : Nat)
    (h : lookupEntry st.entries k = some r) : r < st.heap.length :=
  hwf (k, r) (lookupEntry_mem _ _ _ h)

/-! ## Claim theorems about the projection cache and jobs -/

/-- C6: two sequential `ensure` calls with the same apply-configuration and
merged query (the fetch succeeding with `evs`) invoke the fetch at most
once — the second call never fetches; both callers receive element-wise
equal slices, each a fresh copy distinct from the canonical slice the
cache retains, so a caller overwriting its returned slice leaves the
canonical slice — and hence what later calls observe — unchanged. -/
theorem cache_ensure_at_most_once (st0 : CacheState) (cfg : ApplyConfig)
    (q : Query) (evs : List Event) (hwf : st0.Wf) :
    (ensure (ensure st0 cfg q (.ok evs)).state cfg q (.ok evs)).fetched =
      false ∧
    ∃ r1 r2 rc,
      (ensure st0 cfg q (.ok evs)).result = .ok r1 ∧
      (ensure (ensure st0 cfg q (.ok evs)).state cfg q (.ok evs)).result =
        .ok r2 ∧
      lookupEntry (ensure (ensure st0 cfg q (.ok evs)).state cfg q
        (.ok evs)).state.entries (cacheKey cfg q) = some rc ∧
      rc ≠ r1 ∧ rc ≠ r2 ∧
      (ensure (ensure st0 cfg q (.ok evs)).state cfg q
        (.ok evs)).state.heap.read r1 =
        (ensure (ensure st0 cfg q (.ok evs)).state cfg q
          (.ok evs)).state.heap.read r2 ∧
      ∀ nv,
        ((ensure (ensure st0 cfg q (.ok evs)).state cfg q
          (.ok evs)).state.heap.write r1 nv).read rc =
        (ensure (ensure st0 cfg q (.ok evs)).state cfg q
          (.ok evs)).state.heap.read rc := by
  cases hl : lookupEntry st0.entries (cacheKey cfg q) with
  | some rc0 =>
    have hrc0 : rc0 < st0.heap.length := CacheState.Wf.lookup_lt st0 hwf _ _ hl
    have hlenA : (st0.heap ++ [st0.heap.read rc0]).length =
        st0.heap.length + 1 := by simp
    have he1 : ensure st0 cfg q (.ok evs) =
        ⟨.ok st0.heap.length, ⟨st0.heap ++ [st0.heap.read rc0], st0.entries⟩,
          false⟩ := by
      unfold ensure
      rw [hl]
      rfl
    rw [he1]
    have he2 : ensure (⟨st0.heap ++ [st0.heap.read rc0], st0.entries⟩ :
        CacheState) cfg q (.ok evs) =
        ⟨.ok (st0.heap ++ [st0.heap.read rc0]).length,
          ⟨(st0.heap ++ [st0.heap.read rc0]) ++
            [(st0.heap ++ [st0.heap.read rc0]).read rc0], st0.entries⟩,
          false⟩ := by
      unfold ensure
      rw [hl]
      rfl
    rw [he2]
    have s1 : Heap.read ((st0.heap ++ [st0.heap.read rc0]) ++
        [(st0.heap ++ [st0.heap.read rc0]).read rc0]) st0.heap.length =
        Heap.read (st0.heap ++ [st0.heap.read rc0]) st0.heap.length :=
      Heap.read_append_lt _ _ _ (by simp)
    have s2 : Heap.read (st0.heap ++ [st0.heap.read rc0]) st0.heap.length =
        st0.heap.read rc0 := Heap.read_append_self _ _
    have s3 : Heap.read ((st0.heap ++ [st0.heap.read rc0]) ++
        [(st0.heap ++ [st0.heap.read rc0]).read rc0])
        (st0.heap ++ [st0.heap.read rc0]).length =
        (st0.heap ++ [st0.heap.read rc0]).read rc0 :=
      Heap.read_append_self _ _
    have s4 : Heap.read (st0.heap ++ [st0.heap.read rc0]) rc0 =
        st0.heap.read rc0 := Heap.read_append_lt _ _ _ hrc0
    refine ⟨rfl, st0.heap.length, (st0.heap ++ [st0.heap.read rc0]).length,
      rc0, rfl, rfl, hl, by omega, by omega, ?_, ?_⟩
    · exact (s1.trans s2).trans ((s3.trans s4)).symm
    · intro nv
      exact Heap.read_write_ne _ st0.heap.length rc0 nv (by omega)
  | none =>
    have hlenA : (st0.heap ++ [evs]).length = st0.heap.length + 1 := by simp
    have hlenB : ((st0.heap ++ [evs]) ++ [evs]).length =
        st0.heap.length + 2 := by simp
    have he1 : ensure st0 cfg q (.ok evs) =
        ⟨.ok (st0.heap ++ [evs]).length,
          ⟨(st0.heap ++ [evs]) ++ [evs],
            (cacheKey cfg q, st0.heap.length) :: st0.entries⟩, true⟩ := by
      unfold ensure
      rw [hl]
      rfl
    rw [he1]
    have hl2 : lookupEntry ((cacheKey cfg q, st0.heap.length) :: st0.entries)
        (cacheKey cfg q) = some st0.heap.length :=
      lookupEntry_cons_self _ _ _
    have he2 : ensure (⟨(st0.heap ++ [evs]) ++ [evs],
        (cacheKey cfg q, st0.heap.length) :: st0.entries⟩ : CacheState)
        cfg q (.ok evs) =
        ⟨.ok ((st0.heap ++ [evs]) ++ [evs]).length,
          ⟨((st0.heap ++ [evs]) ++ [evs]) ++
            [((st0.heap ++ [evs]) ++ [evs]).read st0.heap.length],
            (cacheKey cfg q, st0.heap.length) :: st0.entries⟩, false⟩ := by
      unfold ensure
      rw [hl2]
      rfl
    rw [he2]
    have s1 : Heap.read ((((st0.heap ++ [evs]) ++ [evs])) ++
        [((st0.heap ++ [evs]) ++ [evs]).read st0.heap.length])
        (st0.heap ++ [evs]).length =
        Heap.read ((st0.heap ++ [evs]) ++ [evs]) (st0.heap ++ [evs]).length :=
      Heap.read_append_lt _ _ _ (by simp)
    have s2 : Heap.read ((st0.heap ++ [evs]) ++ [evs])
        (st0.heap ++ [evs]).length = evs := Heap.read_append_self _ _
    have s3 : Heap.read ((((st0.heap ++ [evs]) ++ [evs])) ++
        [((st0.heap ++ [evs]) ++ [evs]).read st0.heap.length])
        ((st0.heap ++ [evs]) ++ [evs]).length =
        ((st0.heap ++ [evs]) ++ [evs]).read st0.heap.length :=
      Heap.read_append_self _ _
    have s4 : Heap.read ((st0.heap ++ [evs]) ++ [evs]) st0.heap.length =
        Heap.read (st0.heap ++ [evs]) st0.heap.length :=
      Heap.read_append_lt _ _ _ (by simp)
    have s5 : Heap.read (st0.heap ++ [evs]) st0.heap.length = evs :=
      Heap.read_append_self _ _
    refine ⟨rfl, (st0.heap ++ [evs]).length,
      ((st0.heap ++ [evs]) ++ [evs]).length, st0.heap.length,
      rfl, rfl, hl2, by omega, by omega, ?_, ?_⟩
    · exact (s1.trans s2).trans ((s3.trans (s4.trans s5))).symm
    · intro nv
      exact Heap.read_write_ne _ (st0.heap ++ [evs]).length st0.heap.length
        nv (by omega)

/-- C6 witness: on a fresh cache, the second of two identical calls does
not invoke the fetch again. -/
theorem cache_ensure_at_most_once_witness :
    (ensure (ensure ⟨[], []⟩ ⟨false⟩ ⟨[], [], none⟩ (.ok [evA1])).state
      ⟨false⟩ ⟨[], [], none⟩ (.ok [evA1])).fetched = false :=
  (cache_ensure_at_most_once ⟨[], []⟩ ⟨false⟩ ⟨[], [], none⟩ [evA1]
    (fun pr h => absurd h (List.not_mem_nil pr))).1

/-- C7: when the fetch fails, `ensure` returns the error, stores nothing —
the cache state is unchanged — and a subsequent call with the same key
invokes the fetch again. -/
theorem cache_ensure_error_not_stored (st : CacheState) (cfg : ApplyConfig)
    (q : Query) (msg : String)
    (habs : lookupEntry st.entries (cacheKey cfg q) = none) :
    ensure st cfg q (.error msg) = ⟨.error msg, st, true⟩ ∧
    ∀ fr, (ensure (ensure st cfg q (.error msg)).state cfg q fr).fetched =
      true := by
  have he : ensure st cfg q (.error msg) = ⟨.error msg, st, true⟩ := by
    unfold ensure
    rw [habs]
  refine ⟨he, ?_⟩
  intro fr
  rw [he]
  simp only []
  unfold ensure
  rw [habs]
  cases fr with
  | error e => rfl
  | ok evs => rfl

/-- C7 witness: a failed fetch on the empty cache leaves it empty and the
next call fetches again. -/
theorem cache_ensure_error_not_stored_witness :
    ensure ⟨[], []⟩ ⟨false⟩ ⟨[], [], none⟩ (.error "boom") =
      ⟨.error "boom", ⟨[], []⟩, true⟩ ∧
    (ensure (ensure ⟨[], []⟩ ⟨false⟩ ⟨[], [], none⟩
      (.error "boom")).state ⟨false⟩ ⟨[], [], none⟩
      (.ok [evA1])).fetched = true :=
  ⟨(cache_ensure_error_not_stored ⟨[], []⟩ ⟨false⟩ ⟨[], [], none⟩
      "boom" rfl).1,
    (cache_ensure_error_not_stored ⟨[], []⟩ ⟨false⟩ ⟨[], [], none⟩
      "boom" rfl).2 (.ok [evA1])⟩

/-- C8: a continuous job returns its pre-materialised slice whenever
`fromBase` is off and the slice is non-nil; with `fromBase` set it goes
through the base job's `EventsFor` — the query built by `buildQuery` and
the cache-backed store fetch — and on a cache miss the store is queried. -/
theorem continuous_events_for_paths (j : ContinuousJob) (store : Store)
    (st : CacheState) (p : Option Projection) (opts : List ApplyOpt) :
    (∀ r, (configureApply opts).fromBase = false → j.events = some r →
      j.EventsFor store st p opts = ⟨.ok r, st, ⟨false, false⟩⟩) ∧
    ((configureApply opts).fromBase = true →
      j.EventsFor store st p opts =
        j.base.EventsFor store st p (configureApply opts)) ∧
    ((configureApply opts).fromBase = true →
      lookupEntry st.entries (cacheKey (configureApply opts)
        (buildQuery j.base p (configureApply opts))) = none →
      (j.EventsFor store st p opts).effects.storeQueried = true) := by
  refine ⟨?_, ?_, ?_⟩
  · intro r h1 h2
    unfold ContinuousJob.EventsFor
    rw [h1, h2]
  · intro h1
    unfold ContinuousJob.EventsFor
    rw [h1]
  · intro h1 habs
    unfold ContinuousJob.EventsFor
    rw [h1]
    have hrest : (j.base.EventsFor store st p
        (configureApply opts)).effects.storeQueried = true := by
      unfold BaseJob.EventsFor
      simp only []
      unfold ensure
      rw [habs]
      cases store (buildQuery j.base p (configureApply opts)) with
      | error e => rfl
      | ok evs => rfl
    cases j.events with
    | none => exact hrest
    | some r => exact hrest

/-- C8 witness: with `fromBase` forced on, the continuous job delegates to
the base job and, on a fresh cache, queries the store. -/
theorem continuous_events_for_paths_witness :
    ContinuousJob.EventsFor ⟨⟨[], ⟨[], [], none⟩, ⟨[], [], none⟩⟩, some 0⟩
      (fun _ => .ok []) ⟨[], []⟩ none [fun _ => ⟨true⟩] =
      BaseJob.EventsFor ⟨[], ⟨[], [], none⟩, ⟨[], [], none⟩⟩
        (fun _ => .ok []) ⟨[], []⟩ none
        (configureApply [fun _ => ⟨true⟩]) ∧
    (ContinuousJob.EventsFor ⟨⟨[], ⟨[], [], none⟩, ⟨[], [], none⟩⟩, some 0⟩
      (fun _ => .ok []) ⟨[], []⟩ none
      [fun _ => ⟨true⟩]).effects.storeQueried = true :=
  ⟨(continuous_events_for_paths ⟨⟨[], ⟨[], [], none⟩, ⟨[], [], none⟩⟩,
      some 0⟩ (fun _ => .ok []) ⟨[], []⟩ none [fun _ => ⟨true⟩]).2.1 rfl,
    (continuous_events_for_paths ⟨⟨[], ⟨[], [], none⟩, ⟨[], [], none⟩⟩,
      some 0⟩ (fun _ => .ok []) ⟨[], []⟩ none [fun _ => ⟨true⟩]).2.2
      rfl rfl⟩

/-- C10: a continuous job with a non-nil pre-materialised slice returns
that very slice reference from `Events`/`EventsFor` without `fromBase` —
the store is not queried, `LatestEventTime` is not consulted, the cache
state is untouched and no copy is made — so a caller mutating the returned
slice changes what subsequent calls on the same job observe. -/
theorem continuous_prematerialised_alias (j : ContinuousJob) (store : Store)
    (st : CacheState) (p : Option Projection) (r : Nat)
    (hr : j.events = some r) (hlen : r < st.heap.length) :
    j.Events store st = ⟨.ok r, st, ⟨false, false⟩⟩ ∧
    j.EventsFor store st p [] = ⟨.ok r, st, ⟨false, false⟩⟩ ∧
    ∀ nv,
      j.EventsFor store ⟨st.heap.write r nv, st.entries⟩ p [] =
        ⟨.ok r, ⟨st.heap.write r nv, st.entries⟩, ⟨false, false⟩⟩ ∧
      (st.heap.write r nv).read r = nv := by
  have hfb : (configureApply []).fromBase = false := rfl
  refine ⟨?_, ?_, ?_⟩
  · unfold ContinuousJob.Events ContinuousJob.EventsFor
    rw [hr]
    rfl
  · unfold ContinuousJob.EventsFor
    rw [hr]
    rfl
  · intro nv
    constructor
    · unfold ContinuousJob.EventsFor
      rw [hr]
      rfl
    · exact Heap.read_write_self st.heap r nv hlen

/-- C10 witness: mutating through the returned reference is visible to the
next call on the same job. -/
theorem continuous_prematerialised_alias_witness :
    ContinuousJob.Events ⟨⟨[], ⟨[], [], none⟩, ⟨[], [], none⟩⟩, some 0⟩
      (fun _ => .ok []) ⟨[[evA1]], []⟩ =
      ⟨.ok 0, ⟨[[evA1]], []⟩, ⟨false, false⟩⟩ ∧
    Heap.read (Heap.write ([[evA1]] : Heap) 0 [evA2]) 0 = [evA2] :=
  ⟨(continuous_prematerialised_alias
      ⟨⟨[], ⟨[], [], none⟩, ⟨[], [], none⟩⟩, some 0⟩ (fun _ => .ok [])
      ⟨[[evA1]], []⟩ none 0 rfl (by decide)).1,
    ((continuous_prematerialised_alias
      ⟨⟨[], ⟨[], [], none⟩, ⟨[], [], none⟩⟩, some 0⟩ (fun _ => .ok [])
      ⟨[[evA1]], []⟩ none 0 rfl (by decide)).2.2 [evA2]).2⟩

/-! ### FanIn: safety invariant, liveness and stop idempotence (C9) -/

/-- Closing a worker's input does not change whether it has returned. -/
theorem WorkerState.isDone_closeIn (w : WorkerState T) :
    w.closeIn.isDone = w.isDone := by
  cases w <;> rfl

/-- After closing a worker's input, the input is recorded closed. -/
theorem WorkerState.inClosed_closeIn (w : WorkerState T) :
    w.closeIn.inClosed = true := by
  cases w <;> rfl

/-- A successful indexed lookup yields a member of the list. -/
theorem mem_of_get?_some {α : Type} {l : List α} {i : Nat} {a : α}
    (h : l.get? i = some a) : a ∈ l := by
  induction l generalizing i with
  | nil => cases i <;> exact Option.noConfusion h
  | cons b l ih =>
    cases i with
    | zero =>
      injection h with h
      subst h
      exact List.mem_cons_self b l
    | succ i => exact List.mem_cons_of_mem _ (ih h)

/-- Every member of a list is found at some index. -/
theorem get?_some_of_mem {α : Type} {l : List α} {a : α} (h : a ∈ l) :
    ∃ i, l.get? i = some a := by
  induction l with
  | nil => cases h
  | cons b l ih =>
    rcases List.mem_cons.mp h with rfl | hm
    · exact ⟨0, rfl⟩
    · obtain ⟨i, hi⟩ := ih hm
      exact ⟨i + 1, hi⟩

/-- Replacing one worker changes the progress measure by the difference of
the two worker sizes. -/
theorem wsize_sum_set (l : List (WorkerState T)) (i : Nat)
    (w w0 : WorkerState T) (h : l.get? i = some w0) :
    ((l.set i w).map WorkerState.wsize).sum + w0.wsize =
      (l.map WorkerState.wsize).sum + w.wsize := by
  induction l generalizing i with
  | nil => cases i <;> exact Option.noConfusion h
  | cons a l ih =>
    cases i with
    | zero =>
      injection h with h
      subst h
      simp only [List.set_cons_zero, List.map_cons, List.sum_cons]
      omega
    | succ i =>
      simp only [List.set_cons_succ, List.map_cons, List.sum_cons]
      have := ih i h
      omega

/-- The safety invariant holds in the freshly constructed instance. -/
theorem fanInInv_init (T : Type) (n : Nat) : FanInInv (FanInState.init T n) := by
  refine ⟨fun hc => ?_, fun w hw hd => ?_⟩
  · simp [FanInState.init] at hc
  · simp only [FanInState.init] at hw
    rw [List.eq_of_mem_replicate hw] at hd
    simp [WorkerState.isDone] at hd

/-- The safety invariant is preserved by every step. -/
theorem fanInInv_step {T : Type} {s s2 : FanInState T}
    (hstep : FanInStep s s2) (hinv : FanInInv s) : FanInInv s2 := by
  obtain ⟨h1, h2⟩ := hinv
  cases hstep with
  | stop =>
    exact ⟨fun hc => h1 hc, fun w hw _ => Or.inl rfl⟩
  | closeInput i h =>
    refine ⟨fun hc w hw => ?_, fun w hw hd => ?_⟩
    · rcases List.mem_or_eq_of_mem_set hw with hmem | rfl
      · exact h1 hc w hmem
      · rw [WorkerState.isDone_closeIn]
        exact h1 hc _ (List.getElem_mem h)
    · rcases List.mem_or_eq_of_mem_set hw with hmem | rfl
      · exact h2 w hmem hd
      · exact Or.inr (WorkerState.inClosed_closeIn _)
  | recv i v h =>
    refine ⟨fun hc => absurd (h1 hc _ (mem_of_get?_some h))
      (by simp [WorkerState.isDone]), fun w hw hd => ?_⟩
    rcases List.mem_or_eq_of_mem_set hw with hmem | rfl
    · exact h2 w hmem hd
    · simp [WorkerState.isDone] at hd
  | deliver i v b h =>
    refine ⟨fun hc => absurd (h1 hc _ (mem_of_get?_some h))
      (by simp [WorkerState.isDone]), fun w hw hd => ?_⟩
    rcases List.mem_or_eq_of_mem_set hw with hmem | rfl
    · exact h2 w hmem hd
    · simp [WorkerState.isDone] at hd
  | observeStopIdle i b h hs =>
    refine ⟨fun hc => absurd (h1 hc _ (mem_of_get?_some h))
      (by simp [WorkerState.isDone]), fun w hw hd => ?_⟩
    rcases List.mem_or_eq_of_mem_set hw with hmem | rfl
    · exact h2 w hmem hd
    · exact Or.inl hs
  | observeStopSending i v b h hs =>
    refine ⟨fun hc => absurd (h1 hc _ (mem_of_get?_some h))
      (by simp [WorkerState.isDone]), fun w hw hd => ?_⟩
    rcases List.mem_or_eq_of_mem_set hw with hmem | rfl
    · exact h2 w hmem hd
    · exact Or.inl hs
  | observeClosed i h =>
    refine ⟨fun hc => absurd (h1 hc _ (mem_of_get?_some h))
      (by simp [WorkerState.isDone]), fun w hw hd => ?_⟩
    rcases List.mem_or_eq_of_mem_set hw with hmem | rfl
    · exact h2 w hmem hd
    · exact Or.inr rfl
  | closeOut hall hnc =>
    exact ⟨fun _ => hall, h2⟩

/-- Every reachable `FanIn` state satisfies the safety invariant. -/
theorem fanInInv_reachable {T : Type} {n : Nat} {s : FanInState T}
    (h : FanInReachable T n s) : FanInInv s := by
  induction h with
  | refl => exact fanInInv_init T n
  | tail _ hstep ih => exact fanInInv_step hstep ih

/-- Once the stop token is set or every input has closed, the instance can
run on its own to a state whose output channel is closed. -/
theorem fanin_drive {T : Type} (m : Nat) : ∀ (s : FanInState T),
    FanInState.size s = m →
    (s.stopped = true ∨ ∀ w ∈ s.workers, w.inClosed = true) →
    s.outClosed = false →
    ∃ s2, Relation.ReflTransGen FanInStep s s2 ∧ s2.outClosed = true := by
  induction m using Nat.strong_induction_on with
  | _ m ih =>
    intro s hm hcond hnc
    by_cases hall : ∀ w ∈ s.workers, w.isDone = true
    · exact ⟨{ s with outClosed := true },
        Relation.ReflTransGen.single (FanInStep.closeOut s hall hnc), rfl⟩
    · push_neg at hall
      obtain ⟨w, hw, hwd⟩ := hall
      have hm2 : (s.workers.map WorkerState.wsize).sum = m := hm
      cases w with
      | done b => exact absurd rfl hwd
      | idle b =>
        obtain ⟨i, hq⟩ := get?_some_of_mem hw
        rcases hcond with hstop | hclosed
        · have hsize := wsize_sum_set s.workers i (WorkerState.done b)
            (WorkerState.idle b) hq
          simp only [WorkerState.wsize] at hsize
          have hlt : ((s.workers.set i (WorkerState.done b)).map
              WorkerState.wsize).sum < m := by omega
          obtain ⟨s2, hsteps, hc2⟩ := ih _ hlt
            { s with workers := s.workers.set i (WorkerState.done b) } rfl
            (Or.inl hstop) hnc
          exact ⟨s2, Relation.ReflTransGen.head
            (FanInStep.observeStopIdle s i b hq hstop) hsteps, hc2⟩
        · have hb : (WorkerState.idle b).inClosed = true := hclosed _ hw
          simp only [WorkerState.inClosed] at hb
          subst hb
          have hsize := wsize_sum_set s.workers i (WorkerState.done true)
            (WorkerState.idle true) hq
          simp only [WorkerState.wsize] at hsize
          have hlt : ((s.workers.set i (WorkerState.done true)).map
              WorkerState.wsize).sum < m := by omega
          have hcond2 : ∀ w2 ∈ s.workers.set i (WorkerState.done true),
              w2.inClosed = true := by
            intro w2 hw2
            rcases List.mem_or_eq_of_mem_set hw2 with hmem | rfl
            · exact hclosed _ hmem
            · rfl
          obtain ⟨s2, hsteps, hc2⟩ := ih _ hlt
            { s with workers := s.workers.set i (WorkerState.done true) } rfl
            (Or.inr hcond2) hnc
          exact ⟨s2, Relation.ReflTransGen.head
            (FanInStep.observeClosed s i hq) hsteps, hc2⟩
      | sending v b =>
        obtain ⟨i, hq⟩ := get?_some_of_mem hw
        rcases hcond with hstop | hclosed
        · have hsize := wsize_sum_set s.workers i (WorkerState.done b)
            (WorkerState.sending v b) hq
          simp only [WorkerState.wsize] at hsize
          have hlt : ((s.workers.set i (WorkerState.done b)).map
              WorkerState.wsize).sum < m := by omega
          obtain ⟨s2, hsteps, hc2⟩ := ih _ hlt
            { s with workers := s.workers.set i (WorkerState.done b) } rfl
            (Or.inl hstop) hnc
          exact ⟨s2, Relation.ReflTransGen.head
            (FanInStep.observeStopSending s i v b hq hstop) hsteps, hc2⟩
        · have hb : (WorkerState.sending v b).inClosed = true := hclosed _ hw
          simp only [WorkerState.inClosed] at hb
          subst hb
          have hsize := wsize_sum_set s.workers i (WorkerState.idle true)
            (WorkerState.sending v true) hq
          simp only [WorkerState.wsize] at hsize
          have hlt : ((s.workers.set i (WorkerState.idle true)).map
              WorkerState.wsize).sum < m := by omega
          have hcond2 : ∀ w2 ∈ s.workers.set i (WorkerState.idle true),
              w2.inClosed = true := by
            intro w2 hw2
            rcases List.mem_or_eq_of_mem_set hw2 with hmem | rfl
            · exact hclosed _ hmem
            · rfl
          obtain ⟨s2, hsteps, hc2⟩ := ih _ hlt
            { s with
              workers := s.workers.set i (WorkerState.idle true)
              delivered := s.delivered ++ [v] } rfl
            (Or.inr hcond2) hnc
          exact ⟨s2, Relation.ReflTransGen.head
            (FanInStep.deliver s i v true hq) hsteps, hc2⟩

/-- C9: the `FanIn` output closes exactly when all inputs have closed or
stop was called, stop is idempotent, and nothing is delivered after the
close. Safety: in every reachable state with the output closed, the stop
token is set or every input has closed. Liveness: from every reachable
state where the stop token is set or every input has closed, the instance
can reach an output-closed state on its own. Idempotence: a second stop
leaves the state unchanged. Quiescence: from a reachable output-closed
state, no step delivers a further value and the output stays closed. -/
theorem fanin_close_exactly_and_stop_idempotent (T : Type) (n : Nat) :
    (∀ s : FanInState T, FanInReachable T n s → s.outClosed = true →
      s.stopped = true ∨ ∀ w ∈ s.workers, w.inClosed = true) ∧
    (∀ s : FanInState T, FanInReachable T n s →
      (s.stopped = true ∨ ∀ w ∈ s.workers, w.inClosed = true) →
      s.outClosed = false →
      ∃ s2, Relation.ReflTransGen FanInStep s s2 ∧ s2.outClosed = true) ∧
    (∀ s : FanInState T, s.stop.stop = s.stop) ∧
    (∀ s s2 : FanInState T, FanInReachable T n s → s.outClosed = true →
      FanInStep s s2 → s2.delivered = s.delivered ∧ s2.outClosed = true) := by
  refine ⟨?_, ?_, ?_, ?_⟩
  · intro s hreach hc
    obtain ⟨h1, h2⟩ := fanInInv_reachable hreach
    by_cases hstop : s.stopped = true
    · exact Or.inl hstop
    · refine Or.inr fun w hw => ?_
      rcases h2 w hw (h1 hc w hw) with h | h
      · exact absurd h hstop
      · exact h
  · intro s _ hcond hnc
    exact fanin_drive s.size s rfl hcond hnc
  · intro s
    rfl
  · intro s s2 hreach hc hstep
    obtain ⟨h1, _⟩ := fanInInv_reachable hreach
    have hall := h1 hc
    cases hstep with
    | stop => exact ⟨rfl, hc⟩
    | closeInput i h => exact ⟨rfl, hc⟩
    | recv i v h =>
      exact absurd (hall _ (mem_of_get?_some h)) (by simp [WorkerState.isDone])
    | deliver i v b h =>
      exact absurd (hall _ (mem_of_get?_some h)) (by simp [WorkerState.isDone])
    | observeStopIdle i b h hs => exact ⟨rfl, hc⟩
    | observeStopSending i v b h hs =>
      exact absurd (hall _ (mem_of_get?_some h)) (by simp [WorkerState.isDone])
    | observeClosed i h =>
      exact absurd (hall _ (mem_of_get?_some h)) (by simp [WorkerState.isDone])
    | closeOut hall2 hnc2 => exact absurd hc (by rw [hnc2]; simp)

/-- C9 witness: after a stop from the initial state the instance is
reachable, a second stop is a no-op, and the output can be driven closed. -/
theorem fanin_close_exactly_witness :
    ((FanInState.init Nat 0).stop.stop = (FanInState.init Nat 0).stop) ∧
    (∃ s2, Relation.ReflTransGen FanInStep (FanInState.init Nat 0).stop s2 ∧
      s2.outClosed = true) :=
  ⟨(fanin_close_exactly_and_stop_idempotent Nat 0).2.2.1 (FanInState.init Nat 0),
    (fanin_close_exactly_and_stop_idempotent Nat 0).2.1
      ((FanInState.init Nat 0).stop)
      (Relation.ReflTransGen.single (FanInStep.stop (FanInState.init Nat 0)))
      (Or.inl rfl) rfl⟩

end Goes




